import Mathlib

/-!
# Verification of `convert_icons.py`

A shallow embedding of the icon-conversion script of the
`AQI_Monitoring` repository (`AQI_Monitoring_oled/convert_icons.py`)
over `List Char`, together with theorems settling the specification's
claims about it.

The script performs two regex-substitution passes over the text of a
source file:

1. every declaration matching
   `const\s+unsigned\s+char\s+(\w+)\s*\[\]\s*PROGMEM\s*=\s*\{([^}]+)\};`
   is replaced by a re-serialized declaration in which each extracted
   hex byte (`re.findall(r'0x[0-9a-fA-F]+', body)`, parsed by
   `int(x.strip(), 16)`) has had its 8-bit pattern reversed
   (`reverse_bits`), rendered as `0x%02x`, comma-space separated, with
   a newline after every 12th value and trailing `", \n"` stripped;
2. every commented-out call matching
   `//\s*display\.drawBitmap\s*\(\s*([^,]+),\s*([^,]+),\s*([^,]+),\s*([^,]+),\s*([^,]+),\s*[^)]+\);`
   is replaced by
   `display.setDrawColor(1); display.drawXBMP(x, y, w, h, bitmap);`
   with the captured fragments stripped of surrounding whitespace.

Both regexes are deterministic up to one local backtracking quirk
(`\s*` giving one character back to a following `[^,]+` / `[^)]+` when
the argument is all whitespace), so they are embedded as maximal-munch
scanners; substitution is the standard leftmost non-overlapping scan.
Scanners carry a fuel argument (instantiated with the input length) so
that every definition is structurally recursive and kernel-evaluable.
-/

/-- The characters of a string literal. -/
def chars (s : String) : List Char :=
  s.data

/-- Python's `\s` character class (ASCII): space, tab, newline,
carriage return, vertical tab, form feed. -/
def isSpace (c : Char) : Bool :=
  c == ' ' || c == '\t' || c == '\n' || c == '\r' || c == '\x0b' || c == '\x0c'

/-- Python's `\w` character class restricted to ASCII: letters, digits,
underscore. -/
def isWordChar (c : Char) : Bool :=
  c.isAlpha || c.isDigit || c == '_'

/-- The `[0-9a-fA-F]` character class. -/
def isHexDigitChar (c : Char) : Bool :=
  c.isDigit || ('a' ≤ c && c ≤ 'f') || ('A' ≤ c && c ≤ 'F')

/-- The character set of Python's `strip(", \n")` in the serializer. -/
def isStripChar (c : Char) : Bool :=
  c == ',' || c == ' ' || c == '\n'

/-- Match a literal character sequence at the head of the input,
returning the remainder on success. -/
def litMatch : List Char → List Char → Option (List Char)
  | [], s => some s
  | _ :: _, [] => none
  | l :: ls, c :: cs => if c == l then litMatch ls cs else none

/-- Remove characters satisfying `p` from the right end of a list. -/
def rstripP (p : Char → Bool) (s : List Char) : List Char :=
  (s.reverse.dropWhile p).reverse

/-- Remove characters satisfying `p` from both ends of a list
(Python's `str.strip` with the character set `p`). -/
def stripP (p : Char → Bool) (s : List Char) : List Char :=
  rstripP p (s.dropWhile p)

/-- Python's `str.strip()` (strip whitespace from both ends). -/
def stripWs (s : List Char) : List Char :=
  stripP isSpace s

/-- Python's `str.strip(", \n")`. -/
def pyStrip (s : List Char) : List Char :=
  stripP isStripChar s

/-- The binary digits of `n`, least significant first (empty for `0`),
computed with `fuel ≥ n` steps. -/
def binDigitsAux : Nat → Nat → List Nat
  | 0, _ => []
  | _ + 1, 0 => []
  | f + 1, m + 1 => (m + 1) % 2 :: binDigitsAux f ((m + 1) / 2)

/-- Python's `'{:08b}'.format(n)` as a list of bit values, most
significant first: the minimal binary representation of `n`,
left-padded with zeros to width 8 (wider values keep all their
digits). -/
def format08b (n : Nat) : List Nat :=
  let d := (binDigitsAux n n).reverse
  List.replicate (8 - d.length) 0 ++ d

/-- `reverse_bits` from the source:
`int('{:08b}'.format(n)[::-1], 2)` — render `n` in (at least) 8 binary
digits, reverse the digit string, and parse it back as binary. -/
def reverse_bits (n : Nat) : Nat :=
  (format08b n).reverse.foldl (fun a b => 2 * a + b) 0

/-- The hexadecimal digits of `n`, least significant first (empty for
`0`), computed with `fuel ≥ n` steps. -/
def hexDigitsAux : Nat → Nat → List Nat
  | 0, _ => []
  | _ + 1, 0 => []
  | f + 1, m + 1 => (m + 1) % 16 :: hexDigitsAux f ((m + 1) / 16)

/-- The lowercase hexadecimal digit character for a value below 16. -/
def hexChar (d : Nat) : Char :=
  if d < 10 then Char.ofNat (48 + d) else Char.ofNat (87 + d)

/-- The digit values of `%02x`: the minimal hexadecimal digits of `v`
(most significant first), zero-padded on the left to at least two
digits. -/
def hexPad (v : Nat) : List Nat :=
  List.replicate (2 - ((hexDigitsAux v v).reverse).length) 0 ++ (hexDigitsAux v v).reverse

/-- Python's `f"0x\x7bv:02x\x7d"`: `0x` followed by the minimal lowercase
hexadecimal rendering of `v`, zero-padded to at least two digits. -/
def toHexLit (v : Nat) : List Char :=
  '0' :: 'x' :: (hexPad v).map hexChar

/-- One value of a hexadecimal digit character. -/
def hexDigitVal (c : Char) : Nat :=
  if c.isDigit then c.toNat - 48
  else if 'a' ≤ c && c ≤ 'f' then c.toNat - 97 + 10
  else c.toNat - 65 + 10

/-- Python's `int(s, 16)` restricted to the token shapes the script
can produce: optional surrounding whitespace, an optional `0x`/`0X`
mark, then one or more hex digits (no sign, no underscores — the
tokens `re.findall(r'0x[0-9a-fA-F]+', …)` returns never contain
either).  `none` models `int` raising `ValueError`. -/
def int16 (t : List Char) : Option Nat :=
  let u := stripWs t
  let v := match u with
    | c0 :: c1 :: r => if c0 == '0' && (c1 == 'x' || c1 == 'X') then r else c0 :: c1 :: r
    | r => r
  if v.isEmpty then none
  else if v.all isHexDigitChar then
    some (v.foldl (fun a c => 16 * a + hexDigitVal c) 0)
  else none

/-- `re.findall(r'0x[0-9a-fA-F]+', s)`: leftmost non-overlapping
maximal matches; on failure the scan advances one character.  `fuel`
bounds the number of steps (`s.length` suffices, each step consumes at
least one character). -/
def findallHexAux : Nat → List Char → List (List Char)
  | 0, _ => []
  | _ + 1, [] => []
  | fuel + 1, c :: rest =>
    match rest with
    | [] => findallHexAux fuel rest
    | c2 :: rest2 =>
      if c == '0' && c2 == 'x' then
        if (rest2.takeWhile isHexDigitChar).isEmpty then
          findallHexAux fuel (c2 :: rest2)
        else
          ('0' :: 'x' :: rest2.takeWhile isHexDigitChar) ::
            findallHexAux fuel (rest2.dropWhile isHexDigitChar)
      else findallHexAux fuel rest

/-- `re.findall(r'0x[0-9a-fA-F]+', s)`. -/
def findallHex (s : List Char) : List (List Char) :=
  findallHexAux s.length s

/-- Line 20 of the source:
`values = [int(x.strip(), 16) for x in re.findall(r'0x[0-9a-fA-F]+', hex_data)]`.
The `getD 0` default is never reached: every token `findallHex`
returns parses successfully (proved below). -/
def extractValues (s : List Char) : List Nat :=
  (findallHex s).map fun t => (int16 t).getD 0

/-- Python's `", ".join`. -/
def joinSep : List (List Char) → List Char
  | [] => []
  | [l] => l
  | l :: ls => l ++ ',' :: ' ' :: joinSep ls

/-- Python's `split(', ')`, as first chunk plus remaining chunks
(so that the resulting list is never empty, as in Python). -/
def splitCSAux : List Char → List Char × List (List Char)
  | [] => ([], [])
  | [c] => ([c], [])
  | c :: c2 :: rest =>
    if c == ',' && c2 == ' ' then
      ([], (splitCSAux rest).1 :: (splitCSAux rest).2)
    else
      (c :: (splitCSAux (c2 :: rest)).1, (splitCSAux (c2 :: rest)).2)

/-- Python's `new_hex_data.split(', ')`. -/
def splitCS (s : List Char) : List (List Char) :=
  (splitCSAux s).1 :: (splitCSAux s).2

/-- The wrapping loop of the serializer (lines 29–35): append each
value followed by `", "`, and a newline after every 12th value.
`cnt` is the running counter. -/
def wrapLoop : List (List Char) → Nat → List Char
  | [], _ => []
  | v :: rest, cnt =>
    v ++ ',' :: ' ' :: (if (cnt + 1) % 12 = 0 then ['\n'] else []) ++ wrapLoop rest (cnt + 1)

/-- Lines 26–37 of the source: render the byte values as `0x%02x`
literals, join with `", "`, split the joined string back on `", "`,
run the wrapping loop, and strip `", \n"` from both ends. -/
def serializeVals (vs : List Nat) : List Char :=
  let joined := joinSep (vs.map toHexLit)
  pyStrip (wrapLoop (splitCS joined) 0)

/-- The declaration text `const unsigned char <name>[] PROGMEM = {<body>};`
(the f-string of line 39, with an arbitrary body). -/
def mkDecl (name body : List Char) : List Char :=
  chars "const unsigned char " ++ name ++ chars "[] PROGMEM = \x7b" ++ body ++ chars "\x7d;"

/-- The `replacement` function of the source (lines 15–39): extract
the hex bytes of the matched body, reverse each byte's bits,
re-serialize, and emit the canonical declaration text. -/
def replacement (name body : List Char) : List Char :=
  mkDecl name (serializeVals ((extractValues body).map reverse_bits))

/-- Continue with `x` only when the guard `b` holds (the shape of the
two nonemptiness requirements `(\w+)` and `([^}]+)` impose). -/
def req {α : Type} (b : Bool) (x : Option α) : Option α :=
  if b then x else none

/-- `\s+` followed by maximal munch: at least one whitespace
character, consuming as many as possible. -/
def wsPlus (s : List Char) : Option (List Char) :=
  match s with
  | [] => none
  | c :: rest => if isSpace c then some (rest.dropWhile isSpace) else none

/-- Match the array-declaration regex
`const\s+unsigned\s+char\s+(\w+)\s*\[\]\s*PROGMEM\s*=\s*\{([^}]+)\};`
at the head of the input, returning the two captures (name, body) and
the remainder.  All adjacent regex pieces have disjoint character
classes, so greedy maximal munch is exact. -/
def matchArrayAt (s : List Char) : Option (List Char × List Char × List Char) :=
  (litMatch (chars "const") s).bind fun s1 =>
  (wsPlus s1).bind fun s2 =>
  (litMatch (chars "unsigned") s2).bind fun s3 =>
  (wsPlus s3).bind fun s4 =>
  (litMatch (chars "char") s4).bind fun s5 =>
  (wsPlus s5).bind fun s6 =>
  req (!(s6.takeWhile isWordChar).isEmpty)
    ((litMatch (chars "[]") ((s6.dropWhile isWordChar).dropWhile isSpace)).bind fun s8 =>
     (litMatch (chars "PROGMEM") (s8.dropWhile isSpace)).bind fun s9 =>
     (litMatch (chars "=") (s9.dropWhile isSpace)).bind fun s10 =>
     (litMatch (chars "\x7b") (s10.dropWhile isSpace)).bind fun s11 =>
     req (!(s11.takeWhile (fun c => !(c == '}'))).isEmpty)
       ((litMatch (chars "\x7d;") (s11.dropWhile (fun c => !(c == '}')))).bind fun rest =>
        some (s6.takeWhile isWordChar, s11.takeWhile (fun c => !(c == '}')), rest)))

/-- `pattern.sub(replacement, content)` with fuel: scan left to right;
at a match emit the replacement and continue after it, otherwise copy
one character. -/
def subArrayAux : Nat → List Char → List Char
  | 0, s => s
  | fuel + 1, s =>
    match matchArrayAt s with
    | some (name, body, rest) => replacement name body ++ subArrayAux fuel rest
    | none =>
      match s with
      | [] => []
      | c :: rest => c :: subArrayAux fuel rest

/-- The array pass: `new_content = pattern.sub(replacement, content)`
(line 41). -/
def arrayPass (s : List Char) : List Char :=
  subArrayAux s.length s

/-- One `\s*([^,]+),` piece of the drawBitmap regex: skip whitespace,
capture a maximal nonempty run of non-comma characters, then consume
the comma.  When the argument is all whitespace, the greedy `\s*`
gives one character back so `[^,]+` can match it. -/
def grabArg (s : List Char) : Option (List Char × List Char) :=
  match (s.dropWhile isSpace).dropWhile (fun c => !(c == ',')) with
  | c :: rest =>
    if c == ',' then
      if ((s.dropWhile isSpace).takeWhile (fun c => !(c == ','))).isEmpty then
        if (s.takeWhile isSpace).isEmpty then none
        else some ([(s.takeWhile isSpace).getLastD ' '], rest)
      else some ((s.dropWhile isSpace).takeWhile (fun c => !(c == ',')), rest)
    else none
  | [] => none

/-- The trailing `\s*[^)]+\);` piece of the drawBitmap regex (the
discarded color/background arguments). -/
def grabTail (s : List Char) : Option (List Char) :=
  match (s.dropWhile isSpace).dropWhile (fun c => !(c == ')')) with
  | c :: c2 :: rest =>
    if c == ')' && c2 == ';' then
      if ((s.dropWhile isSpace).takeWhile (fun c => !(c == ')'))).isEmpty then
        if (s.takeWhile isSpace).isEmpty then none else some rest
      else some rest
    else none
  | _ => none

/-- Match the commented-out drawBitmap regex
`//\s*display\.drawBitmap\s*\(\s*([^,]+),\s*([^,]+),\s*([^,]+),\s*([^,]+),\s*([^,]+),\s*[^)]+\);`
at the head of the input, returning the five captures
(x, y, bitmap, w, h) and the remainder. -/
def matchDrawAt (s : List Char) :
    Option ((List Char × List Char × List Char × List Char × List Char) × List Char) :=
  (litMatch (chars "//") s).bind fun s1 =>
  (litMatch (chars "display.drawBitmap") (s1.dropWhile isSpace)).bind fun s2 =>
  (litMatch (chars "(") (s2.dropWhile isSpace)).bind fun s3 =>
  (grabArg s3).bind fun p1 =>
  (grabArg p1.2).bind fun p2 =>
  (grabArg p2.2).bind fun p3 =>
  (grabArg p3.2).bind fun p4 =>
  (grabArg p4.2).bind fun p5 =>
  (grabTail p5.2).bind fun rest =>
  some ((p1.1, p2.1, p3.1, p4.1, p5.1), rest)

/-- The `draw_replacement` function of the source (lines 52–63): the
two replacement statements, with each capture stripped of surrounding
whitespace, the bitmap moved after w and h, and the color hard-coded
to 1. -/
def draw_replacement (x y b w h : List Char) : List Char :=
  chars "display.setDrawColor(1); display.drawXBMP(" ++ stripWs x ++ chars ", " ++
    stripWs y ++ chars ", " ++ stripWs w ++ chars ", " ++ stripWs h ++ chars ", " ++
    stripWs b ++ chars ");"

/-- `draw_pattern.sub(draw_replacement, new_content)` with fuel. -/
def subDrawAux : Nat → List Char → List Char
  | 0, s => s
  | fuel + 1, s =>
    match matchDrawAt s with
    | some (g, rest) =>
      draw_replacement g.1 g.2.1 g.2.2.1 g.2.2.2.1 g.2.2.2.2 ++ subDrawAux fuel rest
    | none =>
      match s with
      | [] => []
      | c :: rest => c :: subDrawAux fuel rest

/-- The call pass: `new_content = draw_pattern.sub(draw_replacement, new_content)`
(line 65). -/
def drawPass (s : List Char) : List Char :=
  subDrawAux s.length s

/-- The content transformation of `process_file`: the array pass
followed by the call pass (file reading and writing are external). -/
def processText (s : List Char) : List Char :=
  drawPass (arrayPass s)

/-- No suffix of the input matches the array-declaration regex. -/
def noArrayMatch : List Char → Bool
  | [] => true
  | c :: rest => (matchArrayAt (c :: rest)).isNone && noArrayMatch rest

/-- No suffix of the input matches the drawBitmap regex. -/
def noDrawMatch : List Char → Bool
  | [] => true
  | c :: rest => (matchDrawAt (c :: rest)).isNone && noDrawMatch rest

/-- `pat` occurs at the head of the input. -/
def leadEq : List Char → List Char → Bool
  | [], _ => true
  | _ :: _, [] => false
  | p :: ps, c :: cs => p == c && leadEq ps cs

/-- `pat` occurs contiguously somewhere in the input. -/
def containsSeq (pat : List Char) : List Char → Bool
  | [] => leadEq pat []
  | c :: rest => leadEq pat (c :: rest) || containsSeq pat rest

/-- The layout the specification describes for a serialized byte list:
literals separated by comma-and-space, a line break after every 12th
literal, and no trailing separator after the last literal. -/
def layoutSpec : List (List Char) → Nat → List Char
  | [], _ => []
  | [l], _ => l
  | l :: ls, cnt =>
    l ++ ',' :: ' ' :: (if (cnt + 1) % 12 = 0 then ['\n'] else []) ++ layoutSpec ls (cnt + 1)

/-- A literal of the exact shape `0x` followed by two lowercase hex
digits (the spec's `0x[0-9a-f]{2}`). -/
def isTwoDigitLowerHexLit (l : List Char) : Bool :=
  match l with
  | [c0, c1, a, b] =>
    c0 == '0' && c1 == 'x' && (a.isDigit || ('a' ≤ a && a ≤ 'f')) &&
      (b.isDigit || ('a' ≤ b && b ≤ 'f'))
  | _ => false

/-- A token of the shape `0x` followed by one or more hex digits
(the shape `re.findall(r'0x[0-9a-fA-F]+', …)` produces). -/
def isHexToken (t : List Char) : Bool :=
  match t with
  | c0 :: c1 :: ds => c0 == '0' && c1 == 'x' && !ds.isEmpty && ds.all isHexDigitChar
  | _ => false

/-- A character that can appear in a lowercase hex literal: a digit,
a lowercase hex letter, or the `x` marker. -/
def isLowerHexOrX (c : Char) : Bool :=
  c.isDigit || ('a' ≤ c && c ≤ 'f') || c == 'x'

/-- Lowercase an uppercase hexadecimal digit letter, leaving every
other character unchanged. -/
def lowerHex (c : Char) : Char :=
  if c == 'A' then 'a' else if c == 'B' then 'b' else if c == 'C' then 'c'
  else if c == 'D' then 'd' else if c == 'E' then 'e' else if c == 'F' then 'f' else c

/-! ## Generic scanning lemmas -/

theorem litMatch_iff (lit s r : List Char) : litMatch lit s = some r ↔ s = lit ++ r := by
  induction lit generalizing s with
  | nil =>
    simp only [litMatch, List.nil_append, Option.some.injEq]
  | cons l ls ih =>
    cases s with
    | nil => simp [litMatch]
    | cons c cs =>
      simp only [litMatch, List.cons_append, List.cons.injEq]
      by_cases h : c = l
      · subst h
        simp [ih]
      · simp [h, Ne.symm h]

theorem litMatch_self_append (lit r : List Char) : litMatch lit (lit ++ r) = some r :=
  (litMatch_iff lit (lit ++ r) r).mpr rfl

theorem litMatch_length {lit s r : List Char} (h : litMatch lit s = some r) :
    s.length = lit.length + r.length := by
  rw [(litMatch_iff lit s r).mp h, List.length_append]

theorem req_eq_some {α : Type} {b : Bool} {x : Option α} {v : α} :
    req b x = some v ↔ b = true ∧ x = some v := by
  cases b <;> simp [req]

theorem dropWhile_length_le (p : Char → Bool) (s : List Char) :
    (s.dropWhile p).length ≤ s.length := by
  induction s with
  | nil => simp
  | cons c rest ih =>
    rw [List.dropWhile_cons]
    by_cases h : p c = true
    · simp only [h, if_true]
      exact le_trans ih (Nat.le_succ _)
    · simp [h]

theorem takeWhile_append_all (p : Char → Bool) (a b : List Char) (h : ∀ c ∈ a, p c = true) :
    (a ++ b).takeWhile p = a ++ b.takeWhile p := by
  induction a with
  | nil => rfl
  | cons c a ih =>
    simp only [List.cons_append, List.takeWhile_cons, h c (List.mem_cons_self c a), if_true]
    rw [ih fun x hx => h x (List.mem_cons_of_mem c hx)]

theorem dropWhile_append_all (p : Char → Bool) (a b : List Char) (h : ∀ c ∈ a, p c = true) :
    (a ++ b).dropWhile p = b.dropWhile p := by
  induction a with
  | nil => rfl
  | cons c a ih =>
    simp only [List.cons_append, List.dropWhile_cons, h c (List.mem_cons_self c a), if_true]
    exact ih fun x hx => h x (List.mem_cons_of_mem c hx)

theorem takeWhile_all (p : Char → Bool) (a : List Char) (h : ∀ c ∈ a, p c = true) :
    a.takeWhile p = a := by
  have := takeWhile_append_all p a [] h
  simpa using this

theorem dropWhile_all (p : Char → Bool) (a : List Char) (h : ∀ c ∈ a, p c = true) :
    a.dropWhile p = [] := by
  have := dropWhile_append_all p a [] h
  simpa using this

theorem takeWhile_append_stop (p : Char → Bool) (a : List Char) (c' : Char) (b : List Char)
    (h : ∀ c ∈ a, p c = true) (hc : p c' = false) :
    (a ++ c' :: b).takeWhile p = a := by
  rw [takeWhile_append_all p a _ h, List.takeWhile_cons, hc]
  simp

theorem dropWhile_append_stop (p : Char → Bool) (a : List Char) (c' : Char) (b : List Char)
    (h : ∀ c ∈ a, p c = true) (hc : p c' = false) :
    (a ++ c' :: b).dropWhile p = c' :: b := by
  rw [dropWhile_append_all p a _ h, List.dropWhile_cons, hc]
  simp

theorem takeWhile_ne_nil_append (p : Char → Bool) (a b : List Char)
    (h : a.dropWhile p ≠ []) : (a ++ b).takeWhile p = a.takeWhile p := by
  induction a with
  | nil => simp at h
  | cons c a ih =>
    by_cases hc : p c = true
    · rw [List.dropWhile_cons, if_pos hc] at h
      simp only [List.cons_append, List.takeWhile_cons, hc, if_true]
      rw [ih h]
    · simp [List.takeWhile_cons, hc]

theorem dropWhile_ne_nil_append (p : Char → Bool) (a b : List Char)
    (h : a.dropWhile p ≠ []) : (a ++ b).dropWhile p = a.dropWhile p ++ b := by
  induction a with
  | nil => simp at h
  | cons c a ih =>
    by_cases hc : p c = true
    · rw [List.dropWhile_cons, if_pos hc] at h
      simp only [List.cons_append, List.dropWhile_cons, hc, if_true]
      rw [ih h]
    · simp [List.dropWhile_cons, hc]

theorem dropWhile_idem (p : Char → Bool) (s : List Char) :
    (s.dropWhile p).dropWhile p = s.dropWhile p := by
  induction s with
  | nil => rfl
  | cons c rest ih =>
    rw [List.dropWhile_cons]
    by_cases hc : p c = true
    · simpa [hc] using ih
    · simp [List.dropWhile_cons, hc]

theorem rstripP_append_all (p : Char → Bool) (a junk : List Char)
    (h : ∀ c ∈ junk, p c = true) : rstripP p (a ++ junk) = rstripP p a := by
  unfold rstripP
  rw [List.reverse_append, dropWhile_append_all p junk.reverse a.reverse]
  intro c hc
  exact h c (List.mem_reverse.mp hc)

theorem rstripP_concat_stop (p : Char → Bool) (a : List Char) (c : Char)
    (hc : p c = false) : rstripP p (a ++ [c]) = a ++ [c] := by
  unfold rstripP
  rw [List.reverse_append]
  simp only [List.reverse_cons, List.reverse_nil, List.nil_append, List.singleton_append,
    List.dropWhile_cons, hc]
  simp

theorem rstripP_append_of_ne (p : Char → Bool) (a b : List Char)
    (h : rstripP p b ≠ []) : rstripP p (a ++ b) = a ++ rstripP p b := by
  have hb : b.reverse.dropWhile p ≠ [] := by
    intro hnil
    apply h
    unfold rstripP
    rw [hnil, List.reverse_nil]
  unfold rstripP
  rw [List.reverse_append, dropWhile_ne_nil_append p b.reverse a.reverse hb,
    List.reverse_append, List.reverse_reverse]

theorem mem_dropWhile_sub (p : Char → Bool) {s : List Char} {c : Char}
    (h : c ∈ s.dropWhile p) : c ∈ s := by
  induction s with
  | nil => simp at h
  | cons a rest ih =>
    rw [List.dropWhile_cons] at h
    by_cases ha : p a = true
    · rw [if_pos ha] at h
      exact List.mem_cons_of_mem a (ih h)
    · rw [if_neg ha] at h
      exact h

theorem mem_takeWhile_sub (p : Char → Bool) {s : List Char} {c : Char}
    (h : c ∈ s.takeWhile p) : c ∈ s := by
  induction s with
  | nil => simp at h
  | cons a rest ih =>
    rw [List.takeWhile_cons] at h
    by_cases ha : p a = true
    · rw [if_pos ha] at h
      rcases List.mem_cons.mp h with rfl | h
      · exact List.mem_cons_self _ _
      · exact List.mem_cons_of_mem a (ih h)
    · simp [ha] at h

/-! ## Length bounds for the matchers -/

theorem wsPlus_length {s r : List Char} (h : wsPlus s = some r) : r.length < s.length := by
  cases s with
  | nil => simp [wsPlus] at h
  | cons c rest =>
    simp only [wsPlus] at h
    by_cases hc : isSpace c = true
    · rw [if_pos hc] at h
      have hr : rest.dropWhile isSpace = r := Option.some.inj h
      subst hr
      have := dropWhile_length_le isSpace rest
      simp only [List.length_cons]
      omega
    · rw [if_neg hc] at h
      exact absurd h (by simp)

theorem matchArrayAt_length {s n b r : List Char} (h : matchArrayAt s = some (n, b, r)) :
    r.length < s.length := by
  simp only [matchArrayAt, Option.bind_eq_some, req_eq_some, Option.some.injEq,
    Prod.mk.injEq] at h
  obtain ⟨s1, h1, s2, h2, s3, h3, s4, h4, s5, h5, s6, h6, hname,
    s8, h8, s9, h9, s10, h10, s11, h11, hbody, rest, hrest, hn, hb, hr⟩ := h
  subst hr
  have l1 := litMatch_length h1
  have l2 := wsPlus_length h2
  have l3 := litMatch_length h3
  have l4 := wsPlus_length h4
  have l5 := litMatch_length h5
  have l6 := wsPlus_length h6
  have l8 := litMatch_length h8
  have d8a := dropWhile_length_le isWordChar s6
  have d8b := dropWhile_length_le isSpace (s6.dropWhile isWordChar)
  have l9 := litMatch_length h9
  have d9 := dropWhile_length_le isSpace s8
  have l10 := litMatch_length h10
  have d10 := dropWhile_length_le isSpace s9
  have l11 := litMatch_length h11
  have d11 := dropWhile_length_le isSpace s10
  have l12 := litMatch_length hrest
  have d12 := dropWhile_length_le (fun c => !(c == '}')) s11
  omega

theorem grabArg_length {s : List Char} {p : List Char × List Char}
    (h : grabArg s = some p) : p.2.length < s.length := by
  obtain ⟨g, r⟩ := p
  show r.length < s.length
  unfold grabArg at h
  rcases hdw : (s.dropWhile isSpace).dropWhile (fun c => !(c == ',')) with _ | ⟨c, rest⟩ <;>
    rw [hdw] at h <;> simp only [] at h
  · exact absurd h (by simp)
  · have h1 : (c :: rest).length ≤ (s.dropWhile isSpace).length := by
      rw [← hdw]
      exact dropWhile_length_le _ _
    have h2 : (s.dropWhile isSpace).length ≤ s.length := dropWhile_length_le _ _
    simp only [List.length_cons] at h1
    by_cases hc : (c == ',') = true
    · rw [if_pos hc] at h
      by_cases he : ((s.dropWhile isSpace).takeWhile (fun c => !(c == ','))).isEmpty = true
      · rw [if_pos he] at h
        by_cases hw : (s.takeWhile isSpace).isEmpty = true
        · rw [if_pos hw] at h
          exact absurd h (by simp)
        · rw [if_neg hw] at h
          have hr : rest = r := (Prod.ext_iff.mp (Option.some.inj h)).2
          subst hr
          omega
      · rw [if_neg he] at h
        have hr : rest = r := (Prod.ext_iff.mp (Option.some.inj h)).2
        subst hr
        omega
    · rw [if_neg hc] at h
      exact absurd h (by simp)

theorem grabTail_length {s r : List Char} (h : grabTail s = some r) :
    r.length < s.length := by
  unfold grabTail at h
  rcases hdw : (s.dropWhile isSpace).dropWhile (fun c => !(c == ')')) with _ | ⟨c, rest⟩ <;>
    rw [hdw] at h
  · exact absurd h (by simp)
  · cases rest with
    | nil => exact absurd h (by simp)
    | cons c2 rest2 =>
      simp only [] at h
      have h1 : (c :: c2 :: rest2).length ≤ (s.dropWhile isSpace).length := by
        rw [← hdw]
        exact dropWhile_length_le _ _
      have h2 : (s.dropWhile isSpace).length ≤ s.length := dropWhile_length_le _ _
      simp only [List.length_cons] at h1
      by_cases hc : (c == ')' && c2 == ';') = true
      · rw [if_pos hc] at h
        by_cases he : ((s.dropWhile isSpace).takeWhile (fun c => !(c == ')'))).isEmpty = true
        · rw [if_pos he] at h
          by_cases hw : (s.takeWhile isSpace).isEmpty = true
          · rw [if_pos hw] at h
            exact absurd h (by simp)
          · rw [if_neg hw] at h
            have hr : rest2 = r := Option.some.inj h
            subst hr
            omega
        · rw [if_neg he] at h
          have hr : rest2 = r := Option.some.inj h
          subst hr
          omega
      · rw [if_neg hc] at h
        exact absurd h (by simp)

theorem matchDrawAt_length {s : List Char}
    {g : List Char × List Char × List Char × List Char × List Char}
    {r : List Char} (h : matchDrawAt s = some (g, r)) : r.length < s.length := by
  simp only [matchDrawAt, Option.bind_eq_some, Option.some.injEq] at h
  obtain ⟨s1, h1, s2, h2, s3, h3, p1, hp1, p2, hp2, p3, hp3, p4, hp4, p5, hp5,
    rest, hrest, heq⟩ := h
  have hr : rest = r := (Prod.ext_iff.mp heq).2
  subst hr
  have l1 := litMatch_length h1
  have l2 := litMatch_length h2
  have d2 := dropWhile_length_le isSpace s1
  have l3 := litMatch_length h3
  have d3 := dropWhile_length_le isSpace s2
  have g1 := grabArg_length hp1
  have g2 := grabArg_length hp2
  have g3 := grabArg_length hp3
  have g4 := grabArg_length hp4
  have g5 := grabArg_length hp5
  have g6 := grabTail_length hrest
  omega

/-! ## Fuel irrelevance and unfolding for the substitution scanners -/

theorem subArrayAux_nil (f : Nat) : subArrayAux f [] = [] := by
  cases f <;> rfl

theorem subArrayAux_fuel : ∀ f g : Nat, ∀ s : List Char, s.length ≤ f → s.length ≤ g →
    subArrayAux f s = subArrayAux g s := by
  intro f
  induction f with
  | zero =>
    intro g s hf hg
    have : s = [] := List.eq_nil_of_length_eq_zero (Nat.le_zero.mp hf)
    subst this
    rw [subArrayAux_nil, subArrayAux_nil]
  | succ f ih =>
    intro g s hf hg
    cases s with
    | nil => rw [subArrayAux_nil, subArrayAux_nil]
    | cons c rest =>
      have hg1 : ∃ g', g = g' + 1 := by
        cases g with
        | zero => simp at hg
        | succ g' => exact ⟨g', rfl⟩
      obtain ⟨g', rfl⟩ := hg1
      simp only [subArrayAux]
      cases hm : matchArrayAt (c :: rest) with
      | some trip =>
        obtain ⟨n, b, r⟩ := trip
        have hlen := matchArrayAt_length hm
        simp only [List.length_cons] at hf hg hlen
        simp only []
        congr 1
        exact ih g' r (by omega) (by omega)
      | none =>
        simp only [List.length_cons] at hf hg
        simp only []
        congr 1
        exact ih g' rest (by omega) (by omega)

theorem arrayPass_nil : arrayPass [] = [] := rfl

theorem arrayPass_match {s n b r : List Char} (h : matchArrayAt s = some (n, b, r)) :
    arrayPass s = replacement n b ++ arrayPass r := by
  have hlen := matchArrayAt_length h
  unfold arrayPass
  obtain ⟨k, hk⟩ : ∃ k, s.length = k + 1 := ⟨s.length - 1, by omega⟩
  rw [hk]
  simp only [subArrayAux, h]
  congr 1
  exact subArrayAux_fuel k r.length r (by omega) (le_refl _)

theorem arrayPass_skip {c : Char} {rest : List Char} (h : matchArrayAt (c :: rest) = none) :
    arrayPass (c :: rest) = c :: arrayPass rest := by
  unfold arrayPass
  simp only [List.length_cons, subArrayAux, h]

theorem subDrawAux_nil (f : Nat) : subDrawAux f [] = [] := by
  cases f <;> rfl

theorem subDrawAux_fuel : ∀ f g : Nat, ∀ s : List Char, s.length ≤ f → s.length ≤ g →
    subDrawAux f s = subDrawAux g s := by
  intro f
  induction f with
  | zero =>
    intro g s hf hg
    have : s = [] := List.eq_nil_of_length_eq_zero (Nat.le_zero.mp hf)
    subst this
    rw [subDrawAux_nil, subDrawAux_nil]
  | succ f ih =>
    intro g s hf hg
    cases s with
    | nil => rw [subDrawAux_nil, subDrawAux_nil]
    | cons c rest =>
      have hg1 : ∃ g', g = g' + 1 := by
        cases g with
        | zero => simp at hg
        | succ g' => exact ⟨g', rfl⟩
      obtain ⟨g', rfl⟩ := hg1
      simp only [subDrawAux]
      cases hm : matchDrawAt (c :: rest) with
      | some pr =>
        obtain ⟨g5, r⟩ := pr
        have hlen := matchDrawAt_length hm
        simp only [List.length_cons] at hf hg hlen
        simp only []
        congr 1
        exact ih g' r (by omega) (by omega)
      | none =>
        simp only [List.length_cons] at hf hg
        simp only []
        congr 1
        exact ih g' rest (by omega) (by omega)

theorem drawPass_nil : drawPass [] = [] := rfl

theorem drawPass_match {s : List Char} {x y b w h r : List Char}
    (hm : matchDrawAt s = some ((x, y, b, w, h), r)) :
    drawPass s = draw_replacement x y b w h ++ drawPass r := by
  have hlen := matchDrawAt_length hm
  unfold drawPass
  obtain ⟨k, hk⟩ : ∃ k, s.length = k + 1 := ⟨s.length - 1, by omega⟩
  rw [hk]
  simp only [subDrawAux, hm]
  congr 1
  exact subDrawAux_fuel k r.length r (by omega) (le_refl _)

theorem drawPass_skip {c : Char} {rest : List Char} (h : matchDrawAt (c :: rest) = none) :
    drawPass (c :: rest) = c :: drawPass rest := by
  unfold drawPass
  simp only [List.length_cons, subDrawAux, h]

theorem findallHexAux_nil (f : Nat) : findallHexAux f [] = [] := by
  cases f <;> rfl

theorem findallHexAux_fuel : ∀ f g : Nat, ∀ s : List Char, s.length ≤ f → s.length ≤ g →
    findallHexAux f s = findallHexAux g s := by
  intro f
  induction f with
  | zero =>
    intro g s hf hg
    have : s = [] := List.eq_nil_of_length_eq_zero (Nat.le_zero.mp hf)
    subst this
    rw [findallHexAux_nil, findallHexAux_nil]
  | succ f ih =>
    intro g s hf hg
    cases s with
    | nil => rw [findallHexAux_nil, findallHexAux_nil]
    | cons c rest =>
      have hg1 : ∃ g', g = g' + 1 := by
        cases g with
        | zero => simp at hg
        | succ g' => exact ⟨g', rfl⟩
      obtain ⟨g', rfl⟩ := hg1
      simp only [findallHexAux]
      cases rest with
      | nil =>
        simp only []
        rw [findallHexAux_nil, findallHexAux_nil]
      | cons c2 rest2 =>
        simp only [List.length_cons] at hf hg
        simp only []
        by_cases h0 : (c == '0' && c2 == 'x') = true
        · rw [if_pos h0, if_pos h0]
          by_cases hemp : ((rest2.takeWhile isHexDigitChar).isEmpty) = true
          · rw [if_pos hemp, if_pos hemp]
            exact ih g' (c2 :: rest2) (by simp; omega) (by simp; omega)
          · rw [if_neg hemp, if_neg hemp]
            have hd := dropWhile_length_le isHexDigitChar rest2
            congr 1
            exact ih g' (rest2.dropWhile isHexDigitChar) (by omega) (by omega)
        · rw [if_neg h0, if_neg h0]
          exact ih g' (c2 :: rest2) (by simp; omega) (by simp; omega)

theorem findallHex_nil : findallHex [] = [] := rfl

theorem findallHex_cons_ne {c : Char} (rest : List Char) (h : (c == '0') = false) :
    findallHex (c :: rest) = findallHex rest := by
  unfold findallHex
  cases rest with
  | nil => rfl
  | cons c2 rest2 =>
    simp only [List.length_cons, findallHexAux]
    rw [if_neg (by simp [h])]

theorem findallHex_cons2_ne {c2 : Char} (rest2 : List Char) (h : (c2 == 'x') = false) :
    findallHex ('0' :: c2 :: rest2) = findallHex (c2 :: rest2) := by
  unfold findallHex
  simp only [List.length_cons, findallHexAux]
  rw [if_neg (by simp [h])]

theorem findallHex_token (rest2 : List Char)
    (h : ((rest2.takeWhile isHexDigitChar).isEmpty) = false) :
    findallHex ('0' :: 'x' :: rest2) =
      ('0' :: 'x' :: rest2.takeWhile isHexDigitChar) ::
        findallHex (rest2.dropWhile isHexDigitChar) := by
  unfold findallHex
  simp only [List.length_cons, findallHexAux]
  rw [if_pos (by simp), if_neg (by simp [h])]
  congr 1
  have hd := dropWhile_length_le isHexDigitChar rest2
  exact findallHexAux_fuel (rest2.length + 1) (rest2.dropWhile isHexDigitChar).length
    (rest2.dropWhile isHexDigitChar) (by omega) (le_refl _)

theorem findallHex_nodigit (rest2 : List Char)
    (h : ((rest2.takeWhile isHexDigitChar).isEmpty) = true) :
    findallHex ('0' :: 'x' :: rest2) = findallHex ('x' :: rest2) := by
  unfold findallHex
  simp only [List.length_cons, findallHexAux]
  rw [if_pos (by simp), if_pos (by simp [h])]

/-! ## Substitution is the identity when nothing matches -/

theorem arrayPass_id {s : List Char} (h : noArrayMatch s = true) : arrayPass s = s := by
  induction s with
  | nil => exact arrayPass_nil
  | cons c rest ih =>
    simp only [noArrayMatch, Bool.and_eq_true, Option.isNone_iff_eq_none] at h
    rw [arrayPass_skip h.1, ih h.2]

theorem drawPass_id {s : List Char} (h : noDrawMatch s = true) : drawPass s = s := by
  induction s with
  | nil => exact drawPass_nil
  | cons c rest ih =>
    simp only [noDrawMatch, Bool.and_eq_true, Option.isNone_iff_eq_none] at h
    rw [drawPass_skip h.1, ih h.2]

theorem leadEq_self_append (pat b : List Char) : leadEq pat (pat ++ b) = true := by
  induction pat with
  | nil => rfl
  | cons p ps ih => simp [leadEq, ih]

theorem containsSeq_append_right (pat a r : List Char) (h : containsSeq pat r = true) :
    containsSeq pat (a ++ r) = true := by
  induction a with
  | nil => simpa using h
  | cons c a ih =>
    simp only [List.cons_append, containsSeq, Bool.or_eq_true]
    exact Or.inr ih

theorem containsSeq_self_append (pat b : List Char) : containsSeq pat (pat ++ b) = true := by
  cases pat with
  | nil =>
    cases b with
    | nil => rfl
    | cons c rest => simp [containsSeq, leadEq]
  | cons p ps =>
    simp only [List.cons_append, containsSeq, Bool.or_eq_true]
    exact Or.inl (leadEq_self_append (p :: ps) b)

theorem matchDrawAt_some_contains {s : List Char}
    {pr : (List Char × List Char × List Char × List Char × List Char) × List Char}
    (h : matchDrawAt s = some pr) : containsSeq (chars "drawBitmap") s = true := by
  simp only [matchDrawAt, Option.bind_eq_some] at h
  obtain ⟨s1, h1, s2, h2, -⟩ := h
  have e1 : s = chars "//" ++ s1 := (litMatch_iff _ _ _).mp h1
  have e2 : s1.dropWhile isSpace = chars "display.drawBitmap" ++ s2 := (litMatch_iff _ _ _).mp h2
  have e3 : s1 = s1.takeWhile isSpace ++ (chars "display.drawBitmap" ++ s2) := by
    rw [← e2, List.takeWhile_append_dropWhile]
  have e4 : chars "display.drawBitmap" = chars "display." ++ chars "drawBitmap" := rfl
  rw [e1, e3, e4, List.append_assoc]
  apply containsSeq_append_right
  apply containsSeq_append_right
  apply containsSeq_append_right
  exact containsSeq_self_append _ _

theorem noDrawMatch_of_not_contains {s : List Char}
    (h : containsSeq (chars "drawBitmap") s = false) : noDrawMatch s = true := by
  induction s with
  | nil => rfl
  | cons c rest ih =>
    have h' := h
    simp only [containsSeq, Bool.or_eq_false_iff] at h'
    simp only [noDrawMatch, Bool.and_eq_true, Option.isNone_iff_eq_none]
    refine ⟨?_, ih h'.2⟩
    cases hm : matchDrawAt (c :: rest) with
    | none => rfl
    | some pr =>
      have := matchDrawAt_some_contains hm
      rw [h] at this
      exact Bool.noConfusion this

/-! ## Hex digits, literals, and parsing them back -/

theorem hexDigitsAux_zero (f : Nat) : hexDigitsAux f 0 = [] := by
  cases f <;> rfl

theorem hexDigitsAux_lt : ∀ f m : Nat, ∀ d ∈ hexDigitsAux f m, d < 16 := by
  intro f
  induction f with
  | zero =>
    intro m d hd
    simp [hexDigitsAux] at hd
  | succ f ih =>
    intro m d hd
    cases m with
    | zero => simp [hexDigitsAux] at hd
    | succ m =>
      simp only [hexDigitsAux, List.mem_cons] at hd
      rcases hd with rfl | hd
      · exact Nat.mod_lt _ (by omega)
      · exact ih _ d hd

theorem hexDigitsAux_val : ∀ f m : Nat, m ≤ f →
    ((hexDigitsAux f m).reverse).foldl (fun a d => 16 * a + d) 0 = m := by
  intro f
  induction f with
  | zero =>
    intro m hm
    obtain rfl : m = 0 := Nat.le_zero.mp hm
    rfl
  | succ f ih =>
    intro m hm
    cases m with
    | zero => rfl
    | succ m =>
      have hdiv : (m + 1) / 16 ≤ f := by
        have := Nat.div_lt_self (Nat.succ_pos m) (by omega : 1 < 16)
        omega
      simp only [hexDigitsAux, List.reverse_cons, List.foldl_append, List.foldl_cons,
        List.foldl_nil]
      rw [ih _ hdiv]
      omega

theorem hexChar_facts : ∀ d : Nat, d < 16 →
    isHexDigitChar (hexChar d) = true ∧ isLowerHexOrX (hexChar d) = true ∧
    isSpace (hexChar d) = false ∧ isStripChar (hexChar d) = false ∧
    (hexChar d == ',') = false ∧ (hexChar d == '}') = false ∧
    (hexChar d == '0') = (d == 0) := by
  decide

theorem hexDigitVal_hexChar : ∀ d : Nat, d < 16 → hexDigitVal (hexChar d) = d := by
  decide


theorem hexPad_lt (v : Nat) : ∀ d ∈ hexPad v, d < 16 := by
  intro d hd
  rcases List.mem_append.mp hd with hrep | hdig
  · have := List.eq_of_mem_replicate hrep
    omega
  · exact hexDigitsAux_lt _ _ _ (List.mem_reverse.mp hdig)

theorem hexPad_ne_nil (v : Nat) : hexPad v ≠ [] := by
  intro hnil
  rcases List.append_eq_nil.mp hnil with ⟨h1, h2⟩
  have hlen : (hexDigitsAux v v).reverse.length = 0 := by
    rw [h2]
    rfl
  rw [List.replicate_eq_nil_iff] at h1
  omega

/-- The shape of `toHexLit v`: `0x` followed by a nonempty list of
lowercase hex digit characters. -/
theorem toHexLit_shape (v : Nat) : toHexLit v = '0' :: 'x' :: (hexPad v).map hexChar ∧
    (hexPad v).map hexChar ≠ [] ∧
    ∀ c ∈ (hexPad v).map hexChar, isHexDigitChar c = true ∧ isLowerHexOrX c = true ∧
      isSpace c = false ∧ isStripChar c = false ∧ (c == ',') = false ∧ (c == '}') = false := by
  refine ⟨rfl, ?_, ?_⟩
  · simp only [ne_eq, List.map_eq_nil_iff]
    exact hexPad_ne_nil v
  · intro c hc
    rcases List.mem_map.mp hc with ⟨d, hd, rfl⟩
    have hd16 := hexPad_lt v d hd
    have := hexChar_facts d hd16
    exact ⟨this.1, this.2.1, this.2.2.1, this.2.2.2.1, this.2.2.2.2.1, this.2.2.2.2.2.1⟩

theorem hex_not_space {c : Char} (h : isHexDigitChar c = true) : isSpace c = false := by
  by_cases hs : isSpace c = true
  · simp only [isSpace, Bool.or_eq_true, beq_iff_eq] at hs
    rcases hs with (((((rfl | rfl) | rfl) | rfl) | rfl) | rfl) <;> exact absurd h (by decide)
  · simpa using hs

theorem stripWs_hex_token (ds : List Char) (hne : ds ≠ [])
    (hhex : ∀ c ∈ ds, isHexDigitChar c = true) :
    stripWs ('0' :: 'x' :: ds) = '0' :: 'x' :: ds := by
  obtain ⟨D, a, hda⟩ := (List.eq_nil_or_concat ds).resolve_left hne
  rw [List.concat_eq_append] at hda
  unfold stripWs stripP
  have hdrop : ('0' :: 'x' :: ds).dropWhile isSpace = '0' :: 'x' :: ds := by
    rw [List.dropWhile_cons, if_neg (by decide)]
  rw [hdrop, hda]
  have hcast : '0' :: 'x' :: (D ++ [a]) = ('0' :: 'x' :: D) ++ [a] := by simp
  rw [hcast]
  apply rstripP_concat_stop
  exact hex_not_space (hhex a (by rw [hda]; exact List.mem_append_right D (by simp)))

theorem int16_hex_token (ds : List Char) (hne : ds ≠ [])
    (hhex : ∀ c ∈ ds, isHexDigitChar c = true) :
    int16 ('0' :: 'x' :: ds) = some (ds.foldl (fun a c => 16 * a + hexDigitVal c) 0) := by
  unfold int16
  simp only [stripWs_hex_token ds hne hhex]
  simp +decide only []
  rw [if_neg (by simp [List.isEmpty_iff, hne])]
  rw [if_pos (by rw [List.all_eq_true]; exact hhex)]
  simp

theorem foldl16_congr : ∀ l : List Nat, (∀ d ∈ l, d < 16) → ∀ a : Nat,
    l.foldl (fun a d => 16 * a + hexDigitVal (hexChar d)) a =
      l.foldl (fun a d => 16 * a + d) a := by
  intro l
  induction l with
  | nil => intro _ _; rfl
  | cons d l ih =>
    intro h a
    simp only [List.foldl_cons]
    rw [hexDigitVal_hexChar d (h d (List.mem_cons_self d l)),
      ih (fun x hx => h x (List.mem_cons_of_mem d hx))]

theorem foldl16_replicate_zero : ∀ k : Nat,
    (List.replicate k 0).foldl (fun a d => 16 * a + d) 0 = 0 := by
  intro k
  induction k with
  | zero => rfl
  | succ k ih => simpa [List.replicate_succ] using ih

/-- Parsing a serialized literal back recovers the value. -/
theorem int16_toHexLit (v : Nat) : int16 (toHexLit v) = some v := by
  obtain ⟨hdef, hne, hprops⟩ := toHexLit_shape v
  rw [hdef, int16_hex_token _ hne (fun c hc => (hprops c hc).1)]
  congr 1
  rw [List.foldl_map]
  have := foldl16_congr (hexPad v) (hexPad_lt v) 0
  rw [this]
  unfold hexPad
  rw [List.foldl_append, foldl16_replicate_zero, hexDigitsAux_val v v (le_refl v)]

/-! ## The serializer produces the specified layout -/

theorem splitCSAux_no_comma : ∀ l rest : List Char, (∀ c ∈ l, (c == ',') = false) →
    splitCSAux (l ++ rest) = (l ++ (splitCSAux rest).1, (splitCSAux rest).2) := by
  intro l
  induction l with
  | nil => intro rest _; rfl
  | cons c l' ih =>
    intro rest h
    have hc : (c == ',') = false := h c (List.mem_cons_self c l')
    have h' : ∀ x ∈ l', (x == ',') = false := fun x hx => h x (List.mem_cons_of_mem c hx)
    rcases hlr : l' ++ rest with _ | ⟨c2, t⟩
    · rcases List.append_eq_nil.mp hlr with ⟨rfl, rfl⟩
      simp [splitCSAux]
    · have hstep : splitCSAux (c :: c2 :: t) =
          (c :: (splitCSAux (c2 :: t)).1, (splitCSAux (c2 :: t)).2) := by
        simp only [splitCSAux]
        rw [if_neg (by simp [hc])]
      calc splitCSAux (c :: l' ++ rest) = splitCSAux (c :: c2 :: t) := by rw [List.cons_append, hlr]
        _ = (c :: (splitCSAux (c2 :: t)).1, (splitCSAux (c2 :: t)).2) := hstep
        _ = (c :: (splitCSAux (l' ++ rest)).1, (splitCSAux (l' ++ rest)).2) := by rw [hlr]
        _ = (c :: l' ++ (splitCSAux rest).1, (splitCSAux rest).2) := by
              rw [ih rest h']
              rfl

theorem splitCS_joinSep : ∀ lits : List (List Char), lits ≠ [] →
    (∀ l ∈ lits, ∀ c ∈ l, (c == ',') = false) → splitCS (joinSep lits) = lits := by
  intro lits
  induction lits with
  | nil => intro hne _; exact absurd rfl hne
  | cons l ls ih =>
    intro _ h
    have hl : ∀ c ∈ l, (c == ',') = false := h l (List.mem_cons_self l ls)
    cases ls with
    | nil =>
      show splitCS (joinSep [l]) = [l]
      have hj : joinSep [l] = l := rfl
      rw [hj]
      unfold splitCS
      have h2 := splitCSAux_no_comma l [] hl
      rw [List.append_nil] at h2
      rw [h2]
      simp [splitCSAux]
    | cons l2 ls2 =>
      have hj : joinSep (l :: l2 :: ls2) = l ++ ',' :: ' ' :: joinSep (l2 :: ls2) := rfl
      rw [hj]
      unfold splitCS
      rw [splitCSAux_no_comma l _ hl]
      have haux : splitCSAux (',' :: ' ' :: joinSep (l2 :: ls2)) =
          ([], (splitCSAux (joinSep (l2 :: ls2))).1 :: (splitCSAux (joinSep (l2 :: ls2))).2) := by
        cases hjj : joinSep (l2 :: ls2) with
        | nil => simp [splitCSAux]
        | cons a t => simp [splitCSAux]
      rw [haux]
      have ih2 := ih (by simp) (fun x hx c hc => h x (List.mem_cons_of_mem l hx) c hc)
      unfold splitCS at ih2
      simp only [List.append_nil]
      rw [ih2]

theorem layoutSpec_ne_nil {l : List Char} {ls : List (List Char)} {cnt : Nat}
    (hl : l ≠ []) : layoutSpec (l :: ls) cnt ≠ [] := by
  cases ls with
  | nil => exact hl
  | cons l2 ls2 =>
    simp only [layoutSpec]
    simp [List.append_eq_nil, hl]

theorem rstrip_wrapLoop : ∀ lits : List (List Char), ∀ cnt : Nat,
    (∀ l ∈ lits, ∃ F a, l = F ++ [a] ∧ isStripChar a = false) → lits ≠ [] →
    rstripP isStripChar (wrapLoop lits cnt) = layoutSpec lits cnt := by
  intro lits
  induction lits with
  | nil => intro cnt _ hne; exact absurd rfl hne
  | cons l ls ih =>
    intro cnt h _
    obtain ⟨F, a, hFa, ha⟩ := h l (List.mem_cons_self l ls)
    cases ls with
    | nil =>
      have hw : wrapLoop [l] cnt =
          l ++ (',' :: ' ' :: ((if (cnt + 1) % 12 = 0 then ['\n'] else []) ++ [])) := by
        simp only [wrapLoop]
        simp [List.append_assoc]
      rw [hw]
      rw [rstripP_append_all isStripChar l _ ?junk]
      case junk =>
        intro c hc
        simp only [List.mem_cons, List.append_nil] at hc
        rcases hc with rfl | rfl | hc
        · decide
        · decide
        · by_cases h12 : (cnt + 1) % 12 = 0
          · rw [if_pos h12] at hc
            simp only [List.mem_singleton] at hc
            subst hc
            decide
          · rw [if_neg h12] at hc
            simp at hc
      have hstripl : rstripP isStripChar l = l := by
        rw [hFa]
        exact rstripP_concat_stop _ _ _ ha
      rw [hstripl]
      simp only [layoutSpec]
    | cons l2 ls2 =>
      have hw : wrapLoop (l :: l2 :: ls2) cnt =
          (l ++ ',' :: ' ' :: (if (cnt + 1) % 12 = 0 then ['\n'] else [])) ++
            wrapLoop (l2 :: ls2) (cnt + 1) := by
        simp [wrapLoop, List.append_assoc]
      have hsub : ∀ x ∈ l2 :: ls2, ∃ F a, x = F ++ [a] ∧ isStripChar a = false :=
        fun x hx => h x (List.mem_cons_of_mem l hx)
      have hih := ih (cnt + 1) hsub (by simp)
      obtain ⟨F2, a2, hFa2, _⟩ := hsub l2 (List.mem_cons_self l2 ls2)
      have hl2 : l2 ≠ [] := by
        rw [hFa2]
        simp
      rw [hw, rstripP_append_of_ne _ _ _ (by rw [hih]; exact layoutSpec_ne_nil hl2), hih]
      have hlay : layoutSpec (l :: l2 :: ls2) cnt =
          l ++ ',' :: ' ' :: ((if (cnt + 1) % 12 = 0 then ['\n'] else []) ++
            layoutSpec (l2 :: ls2) (cnt + 1)) := by
        simp only [layoutSpec]
        simp [List.append_assoc]
      rw [hlay]
      simp [List.append_assoc]

/-- The serializer's output is exactly the specified layout of the
rendered literals. -/
theorem serializeVals_layout (vs : List Nat) :
    serializeVals vs = layoutSpec (vs.map toHexLit) 0 := by
  cases vs with
  | nil => rfl
  | cons v vs' =>
    unfold serializeVals
    simp only []
    have hsplit : splitCS (joinSep ((v :: vs').map toHexLit)) = (v :: vs').map toHexLit := by
      apply splitCS_joinSep _ (by simp)
      intro l hl c hc
      rcases List.mem_map.mp hl with ⟨u, hu, rfl⟩
      obtain ⟨hdef, hnel, hprops⟩ := toHexLit_shape u
      rw [hdef] at hc
      rcases List.mem_cons.mp hc with rfl | hc2
      · decide
      · rcases List.mem_cons.mp hc2 with rfl | hc3
        · decide
        · exact (hprops c hc3).2.2.2.2.1
    rw [hsplit]
    unfold pyStrip stripP
    have hhead : ∃ t, wrapLoop ((v :: vs').map toHexLit) 0 = '0' :: t := by
      simp only [List.map_cons, wrapLoop]
      obtain ⟨hdef, _, _⟩ := toHexLit_shape v
      rw [hdef]
      exact ⟨_, rfl⟩
    obtain ⟨t, ht⟩ := hhead
    rw [ht, List.dropWhile_cons, if_neg (by decide), ← ht]
    apply rstrip_wrapLoop _ _ ?decomp (by simp)
    case decomp =>
      intro l hl
      rcases List.mem_map.mp hl with ⟨u, hu, rfl⟩
      obtain ⟨hdef, hnel, hprops⟩ := toHexLit_shape u
      obtain ⟨D, a, hda⟩ := (List.eq_nil_or_concat ((hexPad u).map hexChar)).resolve_left hnel
      rw [List.concat_eq_append] at hda
      refine ⟨'0' :: 'x' :: D, a, ?_, ?_⟩
      · rw [hdef, hda]
        simp
      · have ha : a ∈ (hexPad u).map hexChar := by
          rw [hda]
          exact List.mem_append_right D (by simp)
        exact (hprops a ha).2.2.2.1

/-- `findall` recovers exactly the literal list from the layout. -/
theorem findallHex_layout : ∀ lits : List (List Char), ∀ cnt : Nat,
    (∀ l ∈ lits, ∃ ds : List Char, l = '0' :: 'x' :: ds ∧ ds ≠ [] ∧
      ∀ c ∈ ds, isHexDigitChar c = true) →
    findallHex (layoutSpec lits cnt) = lits := by
  intro lits
  induction lits with
  | nil => intro cnt _; exact findallHex_nil
  | cons l ls ih =>
    intro cnt h
    obtain ⟨ds, hdef, hne, hhex⟩ := h l (List.mem_cons_self l ls)
    cases ls with
    | nil =>
      have hlay : layoutSpec [l] cnt = l := rfl
      rw [hlay, hdef]
      have htw : ds.takeWhile isHexDigitChar = ds := takeWhile_all _ _ hhex
      have hdw : ds.dropWhile isHexDigitChar = [] := dropWhile_all _ _ hhex
      rw [findallHex_token ds (by rw [htw]; simpa [List.isEmpty_iff] using hne)]
      rw [htw, hdw, findallHex_nil]
    | cons l2 ls2 =>
      have hlay : layoutSpec (l :: l2 :: ls2) cnt =
          l ++ ',' :: ' ' :: ((if (cnt + 1) % 12 = 0 then ['\n'] else []) ++
            layoutSpec (l2 :: ls2) (cnt + 1)) := by
        simp only [layoutSpec]
        simp [List.append_assoc]
      rw [hlay, hdef, List.cons_append, List.cons_append]
      have htw : (ds ++ ',' :: ' ' :: ((if (cnt + 1) % 12 = 0 then ['\n'] else []) ++
          layoutSpec (l2 :: ls2) (cnt + 1))).takeWhile isHexDigitChar = ds :=
        takeWhile_append_stop _ _ _ _ hhex (by decide)
      have hdw : (ds ++ ',' :: ' ' :: ((if (cnt + 1) % 12 = 0 then ['\n'] else []) ++
          layoutSpec (l2 :: ls2) (cnt + 1))).dropWhile isHexDigitChar =
          ',' :: ' ' :: ((if (cnt + 1) % 12 = 0 then ['\n'] else []) ++
            layoutSpec (l2 :: ls2) (cnt + 1)) :=
        dropWhile_append_stop _ _ _ _ hhex (by decide)
      rw [findallHex_token _ (by rw [htw]; simpa [List.isEmpty_iff] using hne)]
      rw [htw, hdw, ← hdef]
      rw [findallHex_cons_ne _ (by decide), findallHex_cons_ne _ (by decide)]
      by_cases h12 : (cnt + 1) % 12 = 0
      · rw [if_pos h12, List.singleton_append, findallHex_cons_ne _ (by decide)]
        rw [ih (cnt + 1) (fun x hx => h x (List.mem_cons_of_mem l hx))]
      · rw [if_neg h12, List.nil_append]
        rw [ih (cnt + 1) (fun x hx => h x (List.mem_cons_of_mem l hx))]

/-- `findall` on the serializer output returns exactly the rendered
literals. -/
theorem findallHex_serializeVals (vs : List Nat) :
    findallHex (serializeVals vs) = vs.map toHexLit := by
  rw [serializeVals_layout]
  apply findallHex_layout
  intro l hl
  rcases List.mem_map.mp hl with ⟨u, hu, rfl⟩
  obtain ⟨hdef, hne, hprops⟩ := toHexLit_shape u
  exact ⟨(hexPad u).map hexChar, hdef, hne, fun c hc => (hprops c hc).1⟩

/-- Round trip: extracting the bytes of a serialized list recovers the
values. -/
theorem extractValues_serializeVals (vs : List Nat) :
    extractValues (serializeVals vs) = vs := by
  unfold extractValues
  rw [findallHex_serializeVals, List.map_map]
  have hpt : ∀ v : Nat, ((int16 (toHexLit v)).getD 0) = v := by
    intro v
    rw [int16_toHexLit]
    rfl
  induction vs with
  | nil => rfl
  | cons v vs ih => simp only [List.map_cons, ih, Function.comp_apply, hpt]

/-! ## Matching a well-formed declaration -/

theorem word_not_space {c : Char} (h : isWordChar c = true) : isSpace c = false := by
  by_cases hs : isSpace c = true
  · simp only [isSpace, Bool.or_eq_true, beq_iff_eq] at hs
    rcases hs with (((((rfl | rfl) | rfl) | rfl) | rfl) | rfl) <;> exact absurd h (by decide)
  · simpa using hs

theorem matchArrayAt_mkDecl (name body : List Char)
    (hn : name ≠ []) (hnw : ∀ c ∈ name, isWordChar c = true)
    (hb : body ≠ []) (hbr : ∀ c ∈ body, (c == '}') = false) :
    matchArrayAt (mkDecl name body) = some (name, body, []) := by
  have hbody' : ∀ c ∈ body, (fun c => !(c == '}')) c = true := by
    intro c hc
    simp [hbr c hc]
  have hnemp : name.isEmpty = false := by
    simpa [List.isEmpty_eq_false] using hn
  have hbemp : body.isEmpty = false := by
    simpa [List.isEmpty_eq_false] using hb
  have h1 : litMatch (chars "const") (mkDecl name body) =
      some (chars " unsigned char " ++ name ++ chars "[] PROGMEM = \x7b" ++ body ++
        chars "\x7d;") := rfl
  have h2 : wsPlus (chars " unsigned char " ++ name ++ chars "[] PROGMEM = \x7b" ++ body ++
      chars "\x7d;") =
      some (chars "unsigned char " ++ name ++ chars "[] PROGMEM = \x7b" ++ body ++
        chars "\x7d;") := rfl
  have h3 : litMatch (chars "unsigned") (chars "unsigned char " ++ name ++
      chars "[] PROGMEM = \x7b" ++ body ++ chars "\x7d;") =
      some (chars " char " ++ name ++ chars "[] PROGMEM = \x7b" ++ body ++ chars "\x7d;") := rfl
  have h4 : wsPlus (chars " char " ++ name ++ chars "[] PROGMEM = \x7b" ++ body ++
      chars "\x7d;") =
      some (chars "char " ++ name ++ chars "[] PROGMEM = \x7b" ++ body ++ chars "\x7d;") := rfl
  have h5 : litMatch (chars "char") (chars "char " ++ name ++ chars "[] PROGMEM = \x7b" ++
      body ++ chars "\x7d;") =
      some (' ' :: (name ++ chars "[] PROGMEM = \x7b" ++ body ++ chars "\x7d;")) := rfl
  have h6 : wsPlus (' ' :: (name ++ chars "[] PROGMEM = \x7b" ++ body ++ chars "\x7d;")) =
      some ((name ++ chars "[] PROGMEM = \x7b" ++ body ++ chars "\x7d;").dropWhile isSpace) := rfl
  have hassoc : name ++ chars "[] PROGMEM = \x7b" ++ body ++ chars "\x7d;" =
      name ++ (chars "[] PROGMEM = \x7b" ++ (body ++ chars "\x7d;")) := by
    simp [List.append_assoc]
  have h6b : (name ++ (chars "[] PROGMEM = \x7b" ++ (body ++ chars "\x7d;"))).dropWhile isSpace =
      name ++ (chars "[] PROGMEM = \x7b" ++ (body ++ chars "\x7d;")) := by
    cases name with
    | nil => exact absurd rfl hn
    | cons nc nt =>
      rw [List.cons_append, List.dropWhile_cons,
        if_neg (by simp [word_not_space (hnw nc (List.mem_cons_self nc nt))])]
  have hexpose : chars "[] PROGMEM = \x7b" ++ (body ++ chars "\x7d;") =
      '[' :: (chars "] PROGMEM = \x7b" ++ (body ++ chars "\x7d;")) := rfl
  have htw : (name ++ (chars "[] PROGMEM = \x7b" ++ (body ++ chars "\x7d;"))).takeWhile
      isWordChar = name := by
    rw [hexpose]
    exact takeWhile_append_stop _ _ _ _ hnw (by decide)
  have hdw : (name ++ (chars "[] PROGMEM = \x7b" ++ (body ++ chars "\x7d;"))).dropWhile
      isWordChar = '[' :: (chars "] PROGMEM = \x7b" ++ (body ++ chars "\x7d;")) := by
    rw [hexpose]
    exact dropWhile_append_stop _ _ _ _ hnw (by decide)
  have h8 : litMatch (chars "[]") (('[' :: (chars "] PROGMEM = \x7b" ++
      (body ++ chars "\x7d;"))).dropWhile isSpace) =
      some (chars " PROGMEM = \x7b" ++ (body ++ chars "\x7d;")) := rfl
  have h9 : litMatch (chars "PROGMEM") ((chars " PROGMEM = \x7b" ++
      (body ++ chars "\x7d;")).dropWhile isSpace) =
      some (chars " = \x7b" ++ (body ++ chars "\x7d;")) := rfl
  have h10 : litMatch (chars "=") ((chars " = \x7b" ++ (body ++ chars "\x7d;")).dropWhile
      isSpace) = some (chars " \x7b" ++ (body ++ chars "\x7d;")) := rfl
  have h11 : litMatch (chars "\x7b") ((chars " \x7b" ++ (body ++ chars "\x7d;")).dropWhile
      isSpace) = some (body ++ chars "\x7d;") := rfl
  have hexpose2 : body ++ chars "\x7d;" = body ++ '}' :: [';'] := rfl
  have htw2 : (body ++ chars "\x7d;").takeWhile (fun c => !(c == '}')) = body := by
    rw [hexpose2]
    exact takeWhile_append_stop _ _ _ _ hbody' (by decide)
  have hdw2 : (body ++ chars "\x7d;").dropWhile (fun c => !(c == '}')) = '}' :: [';'] := by
    rw [hexpose2]
    exact dropWhile_append_stop _ _ _ _ hbody' (by decide)
  have h12 : litMatch (chars "\x7d;") ('}' :: [';']) = some [] := rfl
  unfold matchArrayAt
  rw [h1]
  simp only [Option.some_bind]
  rw [h2]
  simp only [Option.some_bind]
  rw [h3]
  simp only [Option.some_bind]
  rw [h4]
  simp only [Option.some_bind]
  rw [h5]
  simp only [Option.some_bind]
  rw [h6]
  simp only [Option.some_bind]
  rw [hassoc, h6b, htw, hdw, hnemp]
  simp only [Bool.not_false, req, if_true]
  rw [h8]
  simp only [Option.some_bind]
  rw [h9]
  simp only [Option.some_bind]
  rw [h10]
  simp only [Option.some_bind]
  rw [h11]
  simp only [Option.some_bind]
  rw [htw2, hdw2, hbemp]
  simp only [Bool.not_false, if_true]
  rw [h12]
  simp only [Option.some_bind]

/-! ## Matching a well-formed commented-out drawBitmap call -/

theorem stripWs_dropWhile (x : List Char) : stripWs (x.dropWhile isSpace) = stripWs x := by
  unfold stripWs stripP
  rw [dropWhile_idem]

theorem grabArg_append (x rest : List Char) (hx : x ≠ [])
    (hc : ∀ c ∈ x, (c == ',') = false) :
    ∃ g, grabArg (x ++ ',' :: rest) = some (g, rest) ∧ stripWs g = stripWs x := by
  have hxemp : x.isEmpty = false := by simpa [List.isEmpty_eq_false] using hx
  unfold grabArg
  rcases hxa : x.dropWhile isSpace with _ | ⟨nc, nt⟩
  · have hall : ∀ c ∈ x, isSpace c = true := List.dropWhile_eq_nil_iff.mp hxa
    have hs1 : (x ++ ',' :: rest).dropWhile isSpace = ',' :: rest := by
      rw [dropWhile_append_all _ _ _ hall, List.dropWhile_cons, if_neg (by decide)]
    have htk : (x ++ ',' :: rest).takeWhile isSpace = x :=
      takeWhile_append_stop _ _ _ _ hall (by decide)
    rw [hs1]
    rw [show ((',' :: rest) : List Char).dropWhile (fun c => !(c == ',')) = ',' :: rest by
      rw [List.dropWhile_cons, if_neg (by decide)]]
    simp only []
    refine ⟨[x.getLastD ' '], ?_, ?_⟩
    · rw [show ((',' :: rest) : List Char).takeWhile (fun c => !(c == ',')) = [] by
        rw [List.takeWhile_cons, if_neg (by decide)]]
      rw [htk]
      simp +decide [hxemp]
    · obtain ⟨F, a, hFa⟩ := (List.eq_nil_or_concat x).resolve_left hx
      rw [List.concat_eq_append] at hFa
      have hga : x.getLastD ' ' = a := by
        rw [hFa]
        exact List.getLastD_concat _ _ _
      have haspace : isSpace a = true :=
        hall a (by rw [hFa]; exact List.mem_append_right F (by simp))
      rw [hga]
      unfold stripWs stripP
      rw [hxa]
      rw [show ([a] : List Char).dropWhile isSpace = [] by
        rw [List.dropWhile_cons, if_pos haspace]
        rfl]
  · have hne : x.dropWhile isSpace ≠ [] := by rw [hxa]; simp
    have hs1 : (x ++ ',' :: rest).dropWhile isSpace = (nc :: nt) ++ ',' :: rest := by
      rw [dropWhile_ne_nil_append _ _ _ hne, hxa]
    have hmem : ∀ c ∈ nc :: nt, (fun c => !(c == ',')) c = true := by
      intro c hcm
      have : c ∈ x := mem_dropWhile_sub isSpace (by rw [hxa]; exact hcm)
      simp [hc c this]
    have hs2 : ((nc :: nt) ++ ',' :: rest).dropWhile (fun c => !(c == ',')) = ',' :: rest :=
      dropWhile_append_stop _ _ _ _ hmem (by decide)
    have htk2 : ((nc :: nt) ++ ',' :: rest).takeWhile (fun c => !(c == ',')) = nc :: nt :=
      takeWhile_append_stop _ _ _ _ hmem (by decide)
    rw [hs1, hs2]
    simp only []
    refine ⟨nc :: nt, ?_, ?_⟩
    · rw [htk2]
      simp +decide []
    · rw [← hxa]
      exact stripWs_dropWhile x

theorem grabTail_append (t rest : List Char) (ht : t ≠ [])
    (hc : ∀ c ∈ t, (c == ')') = false) :
    grabTail (t ++ ')' :: ';' :: rest) = some rest := by
  have htemp : t.isEmpty = false := by simpa [List.isEmpty_eq_false] using ht
  unfold grabTail
  rcases hta : t.dropWhile isSpace with _ | ⟨nc, nt⟩
  · have hall : ∀ c ∈ t, isSpace c = true := List.dropWhile_eq_nil_iff.mp hta
    have hs1 : (t ++ ')' :: ';' :: rest).dropWhile isSpace = ')' :: ';' :: rest := by
      rw [dropWhile_append_all _ _ _ hall, List.dropWhile_cons, if_neg (by decide)]
    have htk : (t ++ ')' :: ';' :: rest).takeWhile isSpace = t :=
      takeWhile_append_stop _ _ _ _ hall (by decide)
    rw [hs1]
    rw [show ((')' :: ';' :: rest) : List Char).dropWhile (fun c => !(c == ')')) =
        ')' :: ';' :: rest by
      rw [List.dropWhile_cons, if_neg (by decide)]]
    simp only []
    rw [show ((')' :: ';' :: rest) : List Char).takeWhile (fun c => !(c == ')')) = [] by
      rw [List.takeWhile_cons, if_neg (by decide)]]
    rw [htk]
    simp +decide [htemp]
  · have hne : t.dropWhile isSpace ≠ [] := by rw [hta]; simp
    have hs1 : (t ++ ')' :: ';' :: rest).dropWhile isSpace = (nc :: nt) ++ ')' :: ';' :: rest := by
      rw [dropWhile_ne_nil_append _ _ _ hne, hta]
    have hmem : ∀ c ∈ nc :: nt, (fun c => !(c == ')')) c = true := by
      intro c hcm
      have : c ∈ t := mem_dropWhile_sub isSpace (by rw [hta]; exact hcm)
      simp [hc c this]
    have hs2 : ((nc :: nt) ++ ')' :: ';' :: rest).dropWhile (fun c => !(c == ')')) =
        ')' :: ';' :: rest := dropWhile_append_stop _ _ _ _ hmem (by decide)
    have htk2 : ((nc :: nt) ++ ')' :: ';' :: rest).takeWhile (fun c => !(c == ')')) = nc :: nt :=
      takeWhile_append_stop _ _ _ _ hmem (by decide)
    rw [hs1, hs2]
    simp only []
    rw [htk2]
    simp +decide []

theorem matchDrawAt_call (x y b w h t : List Char)
    (hx : x ≠ []) (hxc : ∀ c ∈ x, (c == ',') = false)
    (hy : y ≠ []) (hyc : ∀ c ∈ y, (c == ',') = false)
    (hb : b ≠ []) (hbc : ∀ c ∈ b, (c == ',') = false)
    (hw : w ≠ []) (hwc : ∀ c ∈ w, (c == ',') = false)
    (hh : h ≠ []) (hhc : ∀ c ∈ h, (c == ',') = false)
    (ht : t ≠ []) (htc : ∀ c ∈ t, (c == ')') = false) :
    ∃ g1 g2 g3 g4 g5 : List Char,
      matchDrawAt (chars "//display.drawBitmap(" ++
        (x ++ ',' :: (y ++ ',' :: (b ++ ',' :: (w ++ ',' :: (h ++ ',' :: (t ++ chars ");"))))))) =
        some ((g1, g2, g3, g4, g5), []) ∧
      stripWs g1 = stripWs x ∧ stripWs g2 = stripWs y ∧ stripWs g3 = stripWs b ∧
      stripWs g4 = stripWs w ∧ stripWs g5 = stripWs h := by
  obtain ⟨g1, hg1, hstrip1⟩ :=
    grabArg_append x (y ++ ',' :: (b ++ ',' :: (w ++ ',' :: (h ++ ',' :: (t ++ chars ");"))))) hx hxc
  obtain ⟨g2, hg2, hstrip2⟩ :=
    grabArg_append y (b ++ ',' :: (w ++ ',' :: (h ++ ',' :: (t ++ chars ");")))) hy hyc
  obtain ⟨g3, hg3, hstrip3⟩ :=
    grabArg_append b (w ++ ',' :: (h ++ ',' :: (t ++ chars ");"))) hb hbc
  obtain ⟨g4, hg4, hstrip4⟩ := grabArg_append w (h ++ ',' :: (t ++ chars ");")) hw hwc
  obtain ⟨g5, hg5, hstrip5⟩ := grabArg_append h (t ++ chars ");") hh hhc
  have hgt : grabTail (t ++ chars ");") = some [] := grabTail_append t [] ht htc
  have hpre : litMatch (chars "//") (chars "//display.drawBitmap(" ++
      (x ++ ',' :: (y ++ ',' :: (b ++ ',' :: (w ++ ',' :: (h ++ ',' :: (t ++ chars ");"))))))) =
      some (chars "display.drawBitmap(" ++
        (x ++ ',' :: (y ++ ',' :: (b ++ ',' :: (w ++ ',' :: (h ++ ',' :: (t ++ chars ");"))))))) := rfl
  have h2 : litMatch (chars "display.drawBitmap") ((chars "display.drawBitmap(" ++
      (x ++ ',' :: (y ++ ',' :: (b ++ ',' :: (w ++ ',' :: (h ++ ',' ::
        (t ++ chars ");"))))))).dropWhile isSpace) =
      some (chars "(" ++
        (x ++ ',' :: (y ++ ',' :: (b ++ ',' :: (w ++ ',' :: (h ++ ',' :: (t ++ chars ");"))))))) := rfl
  have h3 : litMatch (chars "(") ((chars "(" ++
      (x ++ ',' :: (y ++ ',' :: (b ++ ',' :: (w ++ ',' :: (h ++ ',' ::
        (t ++ chars ");"))))))).dropWhile isSpace) =
      some (x ++ ',' :: (y ++ ',' :: (b ++ ',' :: (w ++ ',' :: (h ++ ',' ::
        (t ++ chars ");")))))) := rfl
  refine ⟨g1, g2, g3, g4, g5, ?_, hstrip1, hstrip2, hstrip3, hstrip4, hstrip5⟩
  unfold matchDrawAt
  rw [hpre]
  simp only [Option.some_bind]
  rw [h2]
  simp only [Option.some_bind]
  rw [h3]
  simp only [Option.some_bind]
  rw [hg1]
  simp only [Option.some_bind]
  rw [hg2]
  simp only [Option.some_bind]
  rw [hg3]
  simp only [Option.some_bind]
  rw [hg4]
  simp only [Option.some_bind]
  rw [hg5]
  simp only [Option.some_bind]
  rw [hgt]
  simp only [Option.some_bind]

/-! ## Facts about `reverse_bits` and the serialized output -/

set_option maxRecDepth 4000 in
theorem reverse_bits_lt : ∀ v : Nat, v < 256 → reverse_bits v < 256 := by
  decide

set_option maxRecDepth 4000 in
theorem reverse_bits_reverse_bits : ∀ v : Nat, v < 256 → reverse_bits (reverse_bits v) = v := by
  decide

theorem layoutSpec_chars : ∀ lits : List (List Char), ∀ cnt : Nat, ∀ c ∈ layoutSpec lits cnt,
    (∃ l ∈ lits, c ∈ l) ∨ c = ',' ∨ c = ' ' ∨ c = '\n' := by
  intro lits
  induction lits with
  | nil => intro cnt c hc; simp [layoutSpec] at hc
  | cons l ls ih =>
    intro cnt c hc
    cases ls with
    | nil =>
      exact Or.inl ⟨l, List.mem_cons_self l [], hc⟩
    | cons l2 ls2 =>
      have hlay : layoutSpec (l :: l2 :: ls2) cnt =
          l ++ ',' :: ' ' :: ((if (cnt + 1) % 12 = 0 then ['\n'] else []) ++
            layoutSpec (l2 :: ls2) (cnt + 1)) := by
        simp only [layoutSpec]
        simp [List.append_assoc]
      rw [hlay] at hc
      rcases List.mem_append.mp hc with hcl | hcr
      · exact Or.inl ⟨l, List.mem_cons_self l _, hcl⟩
      · rcases List.mem_cons.mp hcr with rfl | hcr2
        · exact Or.inr (Or.inl rfl)
        · rcases List.mem_cons.mp hcr2 with rfl | hcr3
          · exact Or.inr (Or.inr (Or.inl rfl))
          · rcases List.mem_append.mp hcr3 with hnl | htail
            · by_cases h12 : (cnt + 1) % 12 = 0
              · rw [if_pos h12] at hnl
                simp only [List.mem_singleton] at hnl
                exact Or.inr (Or.inr (Or.inr hnl))
              · rw [if_neg h12] at hnl
                simp at hnl
            · rcases ih (cnt + 1) c htail with hin | hsep
              · obtain ⟨l', hl', hc'⟩ := hin
                exact Or.inl ⟨l', List.mem_cons_of_mem l hl', hc'⟩
              · exact Or.inr hsep

theorem serializeVals_no_brace (vs : List Nat) :
    ∀ c ∈ serializeVals vs, (c == '}') = false := by
  intro c hc
  rw [serializeVals_layout] at hc
  rcases layoutSpec_chars _ 0 c hc with ⟨l, hl, hcl⟩ | hsep
  · rcases List.mem_map.mp hl with ⟨u, hu, rfl⟩
    obtain ⟨hdef, hne, hprops⟩ := toHexLit_shape u
    rw [hdef] at hcl
    rcases List.mem_cons.mp hcl with rfl | hcl2
    · decide
    · rcases List.mem_cons.mp hcl2 with rfl | hcl3
      · decide
      · exact (hprops c hcl3).2.2.2.2.2
  · rcases hsep with rfl | rfl | rfl <;> decide

theorem serializeVals_ne_nil {v : Nat} {vs : List Nat} : serializeVals (v :: vs) ≠ [] := by
  rw [serializeVals_layout]
  simp only [List.map_cons]
  apply layoutSpec_ne_nil
  obtain ⟨hdef, hne, -⟩ := toHexLit_shape v
  rw [hdef]
  simp

/-! ## Token shapes and case insensitivity -/

theorem findallHexAux_tokens : ∀ f : Nat, ∀ s : List Char, ∀ t ∈ findallHexAux f s,
    ∃ ds, t = '0' :: 'x' :: ds ∧ ds ≠ [] ∧ ∀ c ∈ ds, isHexDigitChar c = true := by
  intro f
  induction f with
  | zero => intro s t ht; simp [findallHexAux] at ht
  | succ f ih =>
    intro s t ht
    cases s with
    | nil => simp [findallHexAux] at ht
    | cons c rest =>
      cases rest with
      | nil =>
        simp only [findallHexAux] at ht
        rw [findallHexAux_nil] at ht
        simp at ht
      | cons c2 rest2 =>
        simp only [findallHexAux] at ht
        by_cases h0 : (c == '0' && c2 == 'x') = true
        · rw [if_pos h0] at ht
          by_cases hemp : (rest2.takeWhile isHexDigitChar).isEmpty = true
          · rw [if_pos hemp] at ht
            exact ih _ t ht
          · rw [if_neg hemp] at ht
            rcases List.mem_cons.mp ht with rfl | ht2
            · refine ⟨rest2.takeWhile isHexDigitChar, rfl, ?_, ?_⟩
              · simpa [List.isEmpty_iff] using hemp
              · intro c' hc'
                exact List.mem_takeWhile_imp hc'
            · exact ih _ t ht2
        · rw [if_neg h0] at ht
          exact ih _ t ht

theorem findallHex_tokens (s : List Char) : ∀ t ∈ findallHex s,
    isHexToken t = true ∧ (int16 t).isSome = true := by
  intro t ht
  obtain ⟨ds, rfl, hne, hhex⟩ := findallHexAux_tokens s.length s t ht
  constructor
  · simp only [isHexToken]
    rw [List.isEmpty_eq_false.mpr hne, List.all_eq_true.mpr hhex]
    decide
  · rw [int16_hex_token ds hne hhex]
    rfl

set_option maxRecDepth 4000 in
theorem toHexLit_twoDigit : ∀ v : Nat, v < 256 → isTwoDigitLowerHexLit (toHexLit v) = true := by
  decide

theorem lowerHex_facts : ∀ c : Char, isHexDigitChar c = true →
    isHexDigitChar (lowerHex c) = true ∧ hexDigitVal (lowerHex c) = hexDigitVal c := by
  intro c h
  by_cases hA : (c == 'A') = true
  · obtain rfl : c = 'A' := by simpa [beq_iff_eq] using hA
    decide
  by_cases hB : (c == 'B') = true
  · obtain rfl : c = 'B' := by simpa [beq_iff_eq] using hB
    decide
  by_cases hC : (c == 'C') = true
  · obtain rfl : c = 'C' := by simpa [beq_iff_eq] using hC
    decide
  by_cases hD : (c == 'D') = true
  · obtain rfl : c = 'D' := by simpa [beq_iff_eq] using hD
    decide
  by_cases hE : (c == 'E') = true
  · obtain rfl : c = 'E' := by simpa [beq_iff_eq] using hE
    decide
  by_cases hF : (c == 'F') = true
  · obtain rfl : c = 'F' := by simpa [beq_iff_eq] using hF
    decide
  have hid : lowerHex c = c := by
    unfold lowerHex
    rw [if_neg (by simp [hA]), if_neg (by simp [hB]), if_neg (by simp [hC]),
      if_neg (by simp [hD]), if_neg (by simp [hE]), if_neg (by simp [hF])]
  rw [hid]
  exact ⟨h, rfl⟩

theorem extract_single (ds : List Char) (hne : ds ≠ [])
    (hhex : ∀ c ∈ ds, isHexDigitChar c = true) :
    extractValues ('0' :: 'x' :: ds) = [ds.foldl (fun a c => 16 * a + hexDigitVal c) 0] := by
  unfold extractValues
  have hfd : findallHex ('0' :: 'x' :: ds) = ['0' :: 'x' :: ds] := by
    rw [findallHex_token ds (by rw [takeWhile_all _ _ hhex]; simpa [List.isEmpty_iff] using hne)]
    rw [takeWhile_all _ _ hhex, dropWhile_all _ _ hhex, findallHex_nil]
  rw [hfd]
  simp [int16_hex_token ds hne hhex]

theorem foldl16_lower : ∀ l : List Char, (∀ c ∈ l, isHexDigitChar c = true) → ∀ a : Nat,
    (l.map lowerHex).foldl (fun a c => 16 * a + hexDigitVal c) a =
      l.foldl (fun a c => 16 * a + hexDigitVal c) a := by
  intro l
  induction l with
  | nil => intro _ _; rfl
  | cons c l ih =>
    intro h a
    simp only [List.map_cons, List.foldl_cons]
    rw [(lowerHex_facts c (h c (List.mem_cons_self c l))).2,
      ih (fun x hx => h x (List.mem_cons_of_mem c hx))]

theorem map_rb_rb : ∀ vs : List Nat, (∀ v ∈ vs, v < 256) →
    (vs.map reverse_bits).map reverse_bits = vs := by
  intro vs
  induction vs with
  | nil => intro _; rfl
  | cons v vs ih =>
    intro h
    simp only [List.map_cons]
    rw [reverse_bits_reverse_bits v (h v (List.mem_cons_self v vs)),
      ih (fun x hx => h x (List.mem_cons_of_mem v hx))]

/-! ## Declarations with an empty byte list no longer match -/

theorem wsPlus_some_head {s r : List Char} (h : wsPlus s = some r) :
    ∃ c cs, s = c :: cs ∧ isSpace c = true := by
  cases s with
  | nil => simp [wsPlus] at h
  | cons c cs =>
    by_cases hc : isSpace c = true
    · exact ⟨c, cs, rfl, hc⟩
    · simp only [wsPlus, if_neg hc] at h
      exact absurd h (by simp)

theorem noArrayMatch_iff (s : List Char) :
    noArrayMatch s = true ↔ ∀ t, t <:+ s → matchArrayAt t = none := by
  induction s with
  | nil =>
    constructor
    · intro _ t ht
      rw [List.suffix_nil.mp ht]
      rfl
    · intro _
      rfl
  | cons c rest ih =>
    simp only [noArrayMatch, Bool.and_eq_true, Option.isNone_iff_eq_none]
    constructor
    · intro ⟨hhead, htail⟩ t ht
      rcases List.suffix_cons_iff.mp ht with rfl | ht2
      · exact hhead
      · exact ih.mp htail t ht2
    · intro h
      exact ⟨h _ (List.suffix_refl _),
        ih.mpr fun t ht => h t (List.suffix_cons_iff.mpr (Or.inr ht))⟩

theorem suffix_append_cases {t a b : List Char} (h : t <:+ a ++ b) :
    t <:+ b ∨ ∃ a', a' <:+ a ∧ t = a' ++ b := by
  induction a with
  | nil => exact Or.inl (by simpa using h)
  | cons c a ih =>
    rcases List.suffix_cons_iff.mp (by simpa using h) with rfl | ht2
    · exact Or.inr ⟨c :: a, List.suffix_refl _, by simp⟩
    · rcases ih ht2 with hb | ⟨a', ha', rfl⟩
      · exact Or.inl hb
      · exact Or.inr ⟨a', ha'.trans (List.suffix_cons c a), rfl⟩

/-- A run of word characters followed by a character that is neither
whitespace nor part of `const` can never start an array-declaration
match: the regex needs whitespace right after its `const` literal. -/
theorem matchArrayAt_word_junk (w' : List Char) (q0 : Char) (qt : List Char)
    (hw : ∀ c ∈ w', isWordChar c = true) (hq0s : isSpace q0 = false)
    (hq0c : q0 ∈ chars "const" → False) :
    matchArrayAt (w' ++ q0 :: qt) = none := by
  cases hm : matchArrayAt (w' ++ q0 :: qt) with
  | none => rfl
  | some trip =>
    exfalso
    obtain ⟨a, b, r⟩ := trip
    simp only [matchArrayAt, Option.bind_eq_some, req_eq_some, Option.some.injEq,
      Prod.mk.injEq] at hm
    obtain ⟨s1, h1, s2, h2, -⟩ := hm
    have he : w' ++ q0 :: qt = chars "const" ++ s1 := (litMatch_iff _ _ _).mp h1
    obtain ⟨c, cs, hs1, hsp⟩ := wsPlus_some_head h2
    rw [hs1] at he
    rcases List.append_eq_append_iff.mp he with ⟨a', hca, hQ⟩ | ⟨c', hw'eq, hcc⟩
    · cases a' with
      | nil =>
        rw [List.nil_append] at hQ
        have hq0c' : q0 = c := (List.cons.injEq _ _ _ _).mp hQ |>.1
        rw [← hq0c', hq0s] at hsp
        exact Bool.noConfusion hsp
      | cons x a'' =>
        have hx : x ∈ chars "const" := by
          rw [hca]
          exact List.mem_append_right w' (List.mem_cons_self x a'')
        have hq0x : q0 = x := (List.cons.injEq _ _ _ _).mp hQ |>.1
        exact hq0c (hq0x ▸ hx)
    · cases c' with
      | nil =>
        rw [List.nil_append] at hcc
        have hq0c' : c = q0 := (List.cons.injEq _ _ _ _).mp hcc |>.1
        rw [hq0c', hq0s] at hsp
        exact Bool.noConfusion hsp
      | cons x c'' =>
        have hx : x ∈ w' := by
          rw [hw'eq]
          exact List.mem_append_right _ (List.mem_cons_self x c'')
        have hcx : c = x := (List.cons.injEq _ _ _ _).mp hcc |>.1
        rw [hcx, word_not_space (hw x hx)] at hsp
        exact Bool.noConfusion hsp

theorem matchArrayAt_mkDecl_empty (name : List Char)
    (hn : name ≠ []) (hnw : ∀ c ∈ name, isWordChar c = true) :
    matchArrayAt (mkDecl name []) = none := by
  have hnemp : name.isEmpty = false := by
    simpa [List.isEmpty_eq_false] using hn
  have h1 : litMatch (chars "const") (mkDecl name []) =
      some (chars " unsigned char " ++ name ++ chars "[] PROGMEM = \x7b" ++ ([] : List Char) ++
        chars "\x7d;") := rfl
  have h2 : wsPlus (chars " unsigned char " ++ name ++ chars "[] PROGMEM = \x7b" ++
      ([] : List Char) ++ chars "\x7d;") =
      some (chars "unsigned char " ++ name ++ chars "[] PROGMEM = \x7b" ++ ([] : List Char) ++
        chars "\x7d;") := rfl
  have h3 : litMatch (chars "unsigned") (chars "unsigned char " ++ name ++
      chars "[] PROGMEM = \x7b" ++ ([] : List Char) ++ chars "\x7d;") =
      some (chars " char " ++ name ++ chars "[] PROGMEM = \x7b" ++ ([] : List Char) ++
        chars "\x7d;") := rfl
  have h4 : wsPlus (chars " char " ++ name ++ chars "[] PROGMEM = \x7b" ++ ([] : List Char) ++
      chars "\x7d;") =
      some (chars "char " ++ name ++ chars "[] PROGMEM = \x7b" ++ ([] : List Char) ++
        chars "\x7d;") := rfl
  have h5 : litMatch (chars "char") (chars "char " ++ name ++ chars "[] PROGMEM = \x7b" ++
      ([] : List Char) ++ chars "\x7d;") =
      some (' ' :: (name ++ chars "[] PROGMEM = \x7b" ++ ([] : List Char) ++ chars "\x7d;")) := rfl
  have h6 : wsPlus (' ' :: (name ++ chars "[] PROGMEM = \x7b" ++ ([] : List Char) ++
      chars "\x7d;")) =
      some ((name ++ chars "[] PROGMEM = \x7b" ++ ([] : List Char) ++
        chars "\x7d;").dropWhile isSpace) := rfl
  have hassoc : name ++ chars "[] PROGMEM = \x7b" ++ ([] : List Char) ++ chars "\x7d;" =
      name ++ (chars "[] PROGMEM = \x7b" ++ (([] : List Char) ++ chars "\x7d;")) := by
    simp [List.append_assoc]
  have h6b : (name ++ (chars "[] PROGMEM = \x7b" ++ (([] : List Char) ++
      chars "\x7d;"))).dropWhile isSpace =
      name ++ (chars "[] PROGMEM = \x7b" ++ (([] : List Char) ++ chars "\x7d;")) := by
    cases name with
    | nil => exact absurd rfl hn
    | cons nc nt =>
      rw [List.cons_append, List.dropWhile_cons,
        if_neg (by simp [word_not_space (hnw nc (List.mem_cons_self nc nt))])]
  have hexpose : chars "[] PROGMEM = \x7b" ++ (([] : List Char) ++ chars "\x7d;") =
      '[' :: (chars "] PROGMEM = \x7b" ++ (([] : List Char) ++ chars "\x7d;")) := rfl
  have htw : (name ++ (chars "[] PROGMEM = \x7b" ++ (([] : List Char) ++
      chars "\x7d;"))).takeWhile isWordChar = name := by
    rw [hexpose]
    exact takeWhile_append_stop _ _ _ _ hnw (by decide)
  have hdw : (name ++ (chars "[] PROGMEM = \x7b" ++ (([] : List Char) ++
      chars "\x7d;"))).dropWhile isWordChar =
      '[' :: (chars "] PROGMEM = \x7b" ++ (([] : List Char) ++ chars "\x7d;")) := by
    rw [hexpose]
    exact dropWhile_append_stop _ _ _ _ hnw (by decide)
  have h8 : litMatch (chars "[]") (('[' :: (chars "] PROGMEM = \x7b" ++ (([] : List Char) ++
      chars "\x7d;"))).dropWhile isSpace) =
      some (chars " PROGMEM = \x7b" ++ (([] : List Char) ++ chars "\x7d;")) := rfl
  have h9 : litMatch (chars "PROGMEM") ((chars " PROGMEM = \x7b" ++ (([] : List Char) ++
      chars "\x7d;")).dropWhile isSpace) =
      some (chars " = \x7b" ++ (([] : List Char) ++ chars "\x7d;")) := rfl
  have h10 : litMatch (chars "=") ((chars " = \x7b" ++ (([] : List Char) ++
      chars "\x7d;")).dropWhile isSpace) =
      some (chars " \x7b" ++ (([] : List Char) ++ chars "\x7d;")) := rfl
  have h11 : litMatch (chars "\x7b") ((chars " \x7b" ++ (([] : List Char) ++
      chars "\x7d;")).dropWhile isSpace) =
      some (([] : List Char) ++ chars "\x7d;") := rfl
  unfold matchArrayAt
  rw [h1]
  simp only [Option.some_bind]
  rw [h2]
  simp only [Option.some_bind]
  rw [h3]
  simp only [Option.some_bind]
  rw [h4]
  simp only [Option.some_bind]
  rw [h5]
  simp only [Option.some_bind]
  rw [h6]
  simp only [Option.some_bind]
  rw [hassoc, h6b, htw, hdw, hnemp]
  simp only [Bool.not_false, req, if_true]
  rw [h8]
  simp only [Option.some_bind]
  rw [h9]
  simp only [Option.some_bind]
  rw [h10]
  simp only [Option.some_bind]
  rw [h11]
  simp only [Option.some_bind]
  rw [show ((([] : List Char) ++ chars "\x7d;").takeWhile (fun c => !(c == '}'))).isEmpty =
    true from rfl]
  simp [req]

theorem noArrayMatch_mkDecl_empty (name : List Char)
    (hn : name ≠ []) (hnw : ∀ c ∈ name, isWordChar c = true) :
    noArrayMatch (mkDecl name []) = true := by
  rw [noArrayMatch_iff]
  intro t ht
  have hshape : mkDecl name [] = chars "const unsigned char " ++
      (name ++ (chars "[] PROGMEM = \x7b" ++ (([] : List Char) ++ chars "\x7d;"))) := by
    simp [mkDecl, List.append_assoc]
  rw [hshape] at ht
  have hconcrete : ∀ u : List Char,
      u <:+ (chars "[] PROGMEM = \x7b" ++ (([] : List Char) ++ chars "\x7d;")) →
      matchArrayAt u = none := (noArrayMatch_iff _).mp (by decide)
  rcases suffix_append_cases ht with hin | ⟨p', hp', rfl⟩
  · rcases suffix_append_cases hin with hR | ⟨n', hn', rfl⟩
    · exact hconcrete t hR
    · exact matchArrayAt_word_junk n' '[' _ (fun c hc => hnw c (hn'.subset hc))
        (by decide) (by decide)
  · have hmem : p' ∈ (chars "const unsigned char ").tails := (List.mem_tails _ _).mpr hp'
    fin_cases hmem <;>
      first
      | rfl
      | exact hshape ▸ matchArrayAt_mkDecl_empty name hn hnw
      | exact matchArrayAt_word_junk name '[' _ hnw (by decide) (by decide)

/-! ## The claims -/

/-- C1: for every byte value `v` in [0,255], `reverse_bits v` is again
in [0,255] and applying `reverse_bits` twice returns `v`: the bit-order
transform is an involution, hence a bijection, on [0,255]. -/
theorem c1_reverse_bits_involution (v : Nat) (h : v < 256) :
    reverse_bits v < 256 ∧ reverse_bits (reverse_bits v) = v :=
  ⟨reverse_bits_lt v h, reverse_bits_reverse_bits v h⟩

theorem c1_witness :
    (1 : Nat) < 256 ∧ (reverse_bits 1 < 256 ∧ reverse_bits (reverse_bits 1) = 1) :=
  ⟨by decide, c1_reverse_bits_involution 1 (by decide)⟩

set_option maxRecDepth 8000 in
/-- C2: the array pass maps the declaration
`const unsigned char icon[] PROGMEM = {0x01, 0x80};` to exactly
`const unsigned char icon[] PROGMEM = {0x80, 0x01};`: each byte is
bit-reversed (0x01 to 0x80 and 0x80 to 0x01) and the byte order is
preserved. -/
theorem c2_array_pass_example :
    arrayPass (chars "const unsigned char icon[] PROGMEM = \x7b0x01, 0x80\x7d;") =
      chars "const unsigned char icon[] PROGMEM = \x7b0x80, 0x01\x7d;" := by
  decide

/-- C3: for every array body whose extracted byte values are all in
[0,255], the serialized replacement body consists of exactly as many
literals as there are extracted bytes, each a two-digit lowercase hex
literal of shape `0x[0-9a-f]{2}`, separated by comma-and-space with a
line break after every 12th literal and the trailing separator
trimmed (`layoutSpec`); in particular the byte count is unchanged. -/
theorem c3_serialized_shape (body : List Char)
    (h : ∀ v ∈ extractValues body, v < 256) :
    ∃ lits : List (List Char),
      lits.length = (extractValues body).length ∧
      (∀ l ∈ lits, isTwoDigitLowerHexLit l = true) ∧
      serializeVals ((extractValues body).map reverse_bits) = layoutSpec lits 0 := by
  refine ⟨((extractValues body).map reverse_bits).map toHexLit, by simp, ?_,
    serializeVals_layout _⟩
  intro l hl
  rcases List.mem_map.mp hl with ⟨u, hu, rfl⟩
  rcases List.mem_map.mp hu with ⟨v, hv, rfl⟩
  exact toHexLit_twoDigit _ (reverse_bits_lt v (h v hv))

theorem c3_witness :
    (∀ v ∈ extractValues (chars "0x01, 0x80"), v < 256) ∧
    (∃ lits : List (List Char),
      lits.length = (extractValues (chars "0x01, 0x80")).length ∧
      (∀ l ∈ lits, isTwoDigitLowerHexLit l = true) ∧
      serializeVals ((extractValues (chars "0x01, 0x80")).map reverse_bits) =
        layoutSpec lits 0) :=
  ⟨by decide, c3_serialized_shape _ (by decide)⟩

/-- C4 (counterexample): the claim says only tokens of shape `0x`
followed by one or two hex digits are consumed as bytes, and any other
token contributes no byte.  The code's token pattern is
`0x[0-9a-fA-F]+` (one or MORE digits): on the body `0x123` the
three-digit token is consumed whole and contributes the byte value 291,
which no one-or-two-digit token can denote. -/
theorem c4_counterexample :
    findallHex (chars "0x123") = [chars "0x123"] ∧
    extractValues (chars "0x123") = [291] ∧
    ¬ (∀ v ∈ extractValues (chars "0x123"), v < 256) := by
  decide

/-- C4 (amended): the tokens consumed as byte values are exactly the
maximal matches of `0x` followed by ONE OR MORE hex digits
(case-insensitive); every such token parses successfully under
`int(x.strip(), 16)` (no error is ever raised), and any other text
contributes no byte. -/
theorem c4_hex_tokens (s t : List Char) (ht : t ∈ findallHex s) :
    isHexToken t = true ∧ (int16 t).isSome = true :=
  findallHex_tokens s t ht

theorem c4_witness :
    chars "0x1f" ∈ findallHex (chars "0x1f, 10") ∧
    (isHexToken (chars "0x1f") = true ∧ (int16 (chars "0x1f")).isSome = true) :=
  ⟨by decide, c4_hex_tokens (chars "0x1f, 10") (chars "0x1f") (by decide)⟩

/-- C5: every matched commented-out call
`//display.drawBitmap(x, y, bitmap, w, h, trailing);` is replaced by
the two statements
`display.setDrawColor(1); display.drawXBMP(x, y, w, h, bitmap);`, with
the captured fragments used verbatim after trimming surrounding
whitespace, the bitmap moved after w and h, the trailing
color/background arguments discarded, and the color hard-coded to 1. -/
theorem c5_call_rewrite (x y b w h t : List Char)
    (hx : x ≠ []) (hxc : ∀ c ∈ x, (c == ',') = false)
    (hy : y ≠ []) (hyc : ∀ c ∈ y, (c == ',') = false)
    (hb : b ≠ []) (hbc : ∀ c ∈ b, (c == ',') = false)
    (hw : w ≠ []) (hwc : ∀ c ∈ w, (c == ',') = false)
    (hh : h ≠ []) (hhc : ∀ c ∈ h, (c == ',') = false)
    (ht : t ≠ []) (htc : ∀ c ∈ t, (c == ')') = false) :
    drawPass (chars "//display.drawBitmap(" ++
      (x ++ ',' :: (y ++ ',' :: (b ++ ',' :: (w ++ ',' :: (h ++ ',' :: (t ++ chars ");"))))))) =
      draw_replacement x y b w h := by
  obtain ⟨g1, g2, g3, g4, g5, hm, hs1, hs2, hs3, hs4, hs5⟩ :=
    matchDrawAt_call x y b w h t hx hxc hy hyc hb hbc hw hwc hh hhc ht htc
  rw [drawPass_match hm, drawPass_nil, List.append_nil]
  unfold draw_replacement
  rw [hs1, hs2, hs3, hs4, hs5]

theorem c5_witness :
    drawPass (chars "//display.drawBitmap(0, 0, icon, 8, 8, 1, 0);") =
      chars "display.setDrawColor(1); display.drawXBMP(0, 0, 8, 8, icon);" := by
  have h := c5_call_rewrite (chars "0") (chars " 0") (chars " icon") (chars " 8")
    (chars " 8") (chars " 1, 0") (by decide) (by decide) (by decide) (by decide)
    (by decide) (by decide) (by decide) (by decide) (by decide) (by decide)
    (by decide) (by decide)
  exact h

/-- C6: a buffer in which no text matches the array-declaration pattern
and no text matches the commented-out drawBitmap pattern passes through
the full pipeline (array pass, then call pass) unchanged. -/
theorem c6_no_match_identity (s : List Char) (h1 : noArrayMatch s = true)
    (h2 : noDrawMatch s = true) : processText s = s := by
  unfold processText
  rw [arrayPass_id h1, drawPass_id h2]

theorem c6_witness :
    noArrayMatch (chars "int main() \x7b return 0; \x7d") = true ∧
    noDrawMatch (chars "int main() \x7b return 0; \x7d") = true ∧
    processText (chars "int main() \x7b return 0; \x7d") = chars "int main() \x7b return 0; \x7d" :=
  ⟨by decide, by decide, c6_no_match_identity _ (by decide) (by decide)⟩

set_option maxRecDepth 8000 in
/-- C7 (counterexample): the call pass is not idempotent on its own
output.  A captured argument fragment may itself contain
`//display.drawBitmap(`; the rewrite copies it into the output, where
together with the following text it forms a fresh match, so a second
application changes the buffer again. -/
theorem c7_counterexample :
    drawPass (drawPass (chars
      "//display.drawBitmap(0, 0, b, 8, x//display.drawBitmap(q, 1); w, x, y, z, t);")) ≠
      drawPass (chars
        "//display.drawBitmap(0, 0, b, 8, x//display.drawBitmap(q, 1); w, x, y, z, t);") := by
  decide

/-- C7 (amended): applying the call pass a second time leaves the
buffer unchanged whenever the first pass's output no longer contains
the substring `drawBitmap` — the replacement text itself never
reintroduces the pattern; only a captured fragment carrying a
commented-out call into the output can make a second pass rewrite
again. -/
theorem c7_second_pass_identity (s : List Char)
    (h : containsSeq (chars "drawBitmap") (drawPass s) = false) :
    drawPass (drawPass s) = drawPass s :=
  drawPass_id (noDrawMatch_of_not_contains h)

theorem c7_witness :
    containsSeq (chars "drawBitmap")
      (drawPass (chars "//display.drawBitmap(1, 2, icon, 8, 8, 1);")) = false ∧
    drawPass (drawPass (chars "//display.drawBitmap(1, 2, icon, 8, 8, 1);")) =
      drawPass (chars "//display.drawBitmap(1, 2, icon, 8, 8, 1);") :=
  ⟨by decide, c7_second_pass_identity _ (by decide)⟩

/-- C8: for a well-formed declaration whose byte tokens all denote
values in [0,255], applying the array pass twice yields the
declaration serialized with the original byte values: the second pass
undoes the bit reversal of the first.  (With zero byte tokens the
first pass empties the brace body, which the pattern no longer
matches, and the second pass is the identity.) -/
theorem c8_double_pass_restores (name body : List Char)
    (hn : name ≠ []) (hnw : ∀ c ∈ name, isWordChar c = true)
    (hb : body ≠ []) (hbr : ∀ c ∈ body, (c == '}') = false)
    (hv : ∀ v ∈ extractValues body, v < 256) :
    arrayPass (arrayPass (mkDecl name body)) =
      mkDecl name (serializeVals (extractValues body)) ∧
    extractValues (serializeVals (extractValues body)) = extractValues body := by
  constructor
  · have hm1 := matchArrayAt_mkDecl name body hn hnw hb hbr
    have hp1 : arrayPass (mkDecl name body) =
        mkDecl name (serializeVals ((extractValues body).map reverse_bits)) := by
      rw [arrayPass_match hm1, arrayPass_nil, List.append_nil]
      rfl
    rcases hvs : extractValues body with _ | ⟨v, vs⟩
    · rw [hp1, hvs]
      have hser : serializeVals (([] : List Nat).map reverse_bits) = [] := rfl
      rw [hser]
      exact arrayPass_id (noArrayMatch_mkDecl_empty name hn hnw)
    · have hS1ne : serializeVals ((extractValues body).map reverse_bits) ≠ [] := by
        rw [hvs]
        simp only [List.map_cons]
        exact serializeVals_ne_nil
      have hm2 := matchArrayAt_mkDecl name
        (serializeVals ((extractValues body).map reverse_bits)) hn hnw hS1ne
        (serializeVals_no_brace _)
      have hp2 : arrayPass (mkDecl name
          (serializeVals ((extractValues body).map reverse_bits))) =
          mkDecl name (serializeVals ((extractValues
            (serializeVals ((extractValues body).map reverse_bits))).map reverse_bits)) := by
        rw [arrayPass_match hm2, arrayPass_nil, List.append_nil]
        rfl
      rw [hp1, hp2, extractValues_serializeVals, map_rb_rb _ hv, hvs]
  · exact extractValues_serializeVals _

theorem c8_witness :
    (∀ c ∈ chars "icon", isWordChar c = true) ∧
    (∀ v ∈ extractValues (chars "0x01, 0x80"), v < 256) ∧
    (arrayPass (arrayPass (mkDecl (chars "icon") (chars "0x01, 0x80"))) =
      mkDecl (chars "icon") (serializeVals (extractValues (chars "0x01, 0x80"))) ∧
     extractValues (serializeVals (extractValues (chars "0x01, 0x80"))) =
      extractValues (chars "0x01, 0x80")) :=
  ⟨by decide, by decide,
   c8_double_pass_restores (chars "icon") (chars "0x01, 0x80") (by decide) (by decide)
     (by decide) (by decide) (by decide)⟩

set_option maxRecDepth 8000 in
/-- C9 (counterexample): the claim says the surrounding declaration
syntax is preserved verbatim, including its exact spacing.  On a
declaration written with two spaces after `const`, the replacement
emits the canonical single-space spelling: the original spacing
`const  unsigned` does not occur in the output. -/
theorem c9_counterexample :
    arrayPass (chars "const  unsigned char i[] PROGMEM = \x7b0x01\x7d;") =
      chars "const unsigned char i[] PROGMEM = \x7b0x80\x7d;" ∧
    containsSeq (chars "const  unsigned")
      (arrayPass (chars "const  unsigned char i[] PROGMEM = \x7b0x01\x7d;")) = false := by
  decide

/-- C9 (amended): for every matched declaration, the replacement emits
the fixed canonical spelling `const unsigned char <name>[] PROGMEM =
{...};` with the captured name copied verbatim; qualifier spelling and
spacing are normalized to this canonical form rather than preserved. -/
theorem c9_canonical_emission (s n b r : List Char)
    (hm : matchArrayAt s = some (n, b, r)) :
    arrayPass s = chars "const unsigned char " ++ n ++ chars "[] PROGMEM = \x7b" ++
      serializeVals ((extractValues b).map reverse_bits) ++ chars "\x7d;" ++ arrayPass r := by
  rw [arrayPass_match hm]
  rfl

theorem c9_witness :
    matchArrayAt (chars "const  unsigned char i[] PROGMEM = \x7b0x01\x7d;") =
      some (chars "i", chars "0x01", []) ∧
    arrayPass (chars "const  unsigned char i[] PROGMEM = \x7b0x01\x7d;") =
      chars "const unsigned char " ++ chars "i" ++ chars "[] PROGMEM = \x7b" ++
        serializeVals ((extractValues (chars "0x01")).map reverse_bits) ++ chars "\x7d;" ++
        arrayPass [] :=
  ⟨by decide, c9_canonical_emission _ _ _ _ (by decide)⟩

/-- C10: hex byte tokens with uppercase digits are accepted as byte
values identically to their lowercase spellings, and every literal in
the re-emitted declaration body is lowercase — one array pass
normalizes the letter case of the byte literals it matches. -/
theorem c10_case_normalization :
    (∀ ds : List Char, ds ≠ [] → (∀ c ∈ ds, isHexDigitChar c = true) →
      extractValues ('0' :: 'x' :: ds) = extractValues ('0' :: 'x' :: ds.map lowerHex)) ∧
    (∀ vs : List Nat, ∀ l ∈ findallHex (serializeVals vs), ∀ c ∈ l,
      isLowerHexOrX c = true) := by
  constructor
  · intro ds hne hhex
    have hlow : ∀ c ∈ ds.map lowerHex, isHexDigitChar c = true := by
      intro c hc
      rcases List.mem_map.mp hc with ⟨c', hc', rfl⟩
      exact (lowerHex_facts c' (hhex c' hc')).1
    have hlne : ds.map lowerHex ≠ [] := by simpa using hne
    rw [extract_single ds hne hhex, extract_single _ hlne hlow]
    congr 1
    exact (foldl16_lower ds hhex 0).symm
  · intro vs l hl c hc
    rw [findallHex_serializeVals] at hl
    rcases List.mem_map.mp hl with ⟨u, hu, rfl⟩
    obtain ⟨hdef, hne, hprops⟩ := toHexLit_shape u
    rw [hdef] at hc
    rcases List.mem_cons.mp hc with rfl | hc2
    · decide
    · rcases List.mem_cons.mp hc2 with rfl | hc3
      · decide
      · exact (hprops c hc3).2.1

theorem c10_witness :
    extractValues ('0' :: 'x' :: ['A', 'B']) =
      extractValues ('0' :: 'x' :: (['A', 'B'].map lowerHex)) ∧
    isLowerHexOrX 'a' = true :=
  ⟨c10_case_normalization.1 ['A', 'B'] (by decide) (by decide),
   c10_case_normalization.2 [171] (chars "0xab") (by decide) 'a' (by decide)⟩
